import Mathlib

/-!
# Verification of MazeScreen (src/MazeScreen.py)

Shallow embedding of the maze generator, the colour post-processing pass,
the camera/movement model and the DDA raycasting loop of `MazeScreen.py`,
together with proofs about the claims of the specification.

Modelling conventions:
* Python's 2D list `maze` becomes `List (List ℕ)`; `maze[y][x]` in-range reads
  become `getCell`, in-place assignments become `setCell`.
* Python floats become exact rationals `ℚ`; `int(q)` (truncation toward zero)
  becomes `pyInt`.
* `random.choice` is modelled by an ambient stream of naturals
  `rand : ℕ → ℕ`: the k-th call picks index `rand k % length` of the
  candidate list, so quantifying over `rand` covers every possible run.
* The unbounded `while stack:` loop is modelled with explicit fuel
  `2 * width * height + 1`; each iteration either pops the stack or turns a
  Wall cell Empty, so the measure `2 * (#Wall cells) + |stack|` bounds the
  number of iterations and this fuel is never exhausted
  (`carve_fuel_enough` below makes this precise).
* Python's float division raises `ZeroDivisionError` on a zero divisor;
  this is modelled by `pydiv : ℚ → ℚ → Option ℚ` returning `none`.
-/

/-- Read `maze[y][x]`. Out-of-range reads never occur on the guarded paths of
the source; the default `1` (Wall) is a harmless total-function completion. -/
def getCell (m : List (List ℕ)) (x y : ℕ) : ℕ :=
  (m.getD y []).getD x 1

/-- Write `maze[y][x] = v` (in range; `List.set` is the identity out of range,
matching the fact that the source only ever writes in range). -/
def setCell (m : List (List ℕ)) (x y : ℕ) (v : ℕ) : List (List ℕ) :=
  m.set y ((m.getD y []).set x v)

/-- `[[1 for _ in range(width)] for _ in range(height)]` -/
def initMaze (width height : ℕ) : List (List ℕ) :=
  List.replicate height (List.replicate width 1)

/-- The four candidate neighbours of `(x, y)` at Manhattan distance 2,
in the order `[(2, 0), (-2, 0), (0, 2), (0, -2)]` of the source, filtered by
`0 < nx < width - 1 and 0 < ny < height - 1 and maze[ny][nx] == 1`.
(Over `ℕ`, `x - 2` truncates at `0` for `x < 2`, which the `0 < nx` guard
rejects exactly as it rejects the negative Python value.) -/
def neighbors (width height : ℕ) (m : List (List ℕ)) (x y : ℕ) : List (ℕ × ℕ) :=
  [(x + 2, y), (x - 2, y), (x, y + 2), (x, y - 2)].filter
    (fun p => 0 < p.1 && p.1 < width - 1 && 0 < p.2 && p.2 < height - 1 &&
      getCell m p.1 p.2 == 1)

/-- One run of `while stack:` with explicit fuel.  The wall between the
current cell `(x, y)` and the chosen neighbour `(nx, ny)` is the cell
`(x + (nx - x) // 2, y + (ny - y) // 2)` of the source; since `x` and `nx`
are integers of equal parity this equals `((x + nx) / 2, (y + ny) / 2)`,
which is the form used here (exact over `ℕ`, avoiding truncated
subtraction). -/
def carve (width height : ℕ) (rand : ℕ → ℕ) :
    ℕ → List (List ℕ) → List (ℕ × ℕ) → ℕ → List (List ℕ)
  | 0, m, _, _ => m
  | _ + 1, m, [], _ => m
  | fuel + 1, m, (x, y) :: stack, k =>
    let nbs := neighbors width height m x y
    if nbs.isEmpty then
      carve width height rand fuel m stack k
    else
      let c := nbs.getD (rand k % nbs.length) (0, 0)
      let m' := setCell (setCell m c.1 c.2 0) ((x + c.1) / 2) ((y + c.2) / 2) 0
      carve width height rand fuel m' (c :: (x, y) :: stack) (k + 1)

/-- `generate_maze(width, height)` for a given random stream. -/
def generate_maze (width height : ℕ) (rand : ℕ → ℕ) : List (List ℕ) :=
  carve width height rand (2 * width * height + 1)
    (setCell (initMaze width height) 1 1 0) [(1, 1)] 0

/-- `generate_maze` with Python's failure behaviour made explicit: the only
statement that can raise is the initial `maze[start_y][start_x] = 0`, which
raises `IndexError` exactly when `height < 2` or `width < 2` (index 1 into a
list needs length at least 2; every later read and write is guarded inside
`0 < i < dimension - 1` and hence in range).  `none` models the raised
`IndexError`. -/
def generate_maze? (width height : ℕ) (rand : ℕ → ℕ) : Option (List (List ℕ)) :=
  if 2 ≤ width ∧ 2 ≤ height then some (generate_maze width height rand) else none

/-- Number of Wall (`1`) cells in the grid: the termination measure of the
carving loop (each push turns the chosen Wall junction Empty). -/
def wallCount (m : List (List ℕ)) : ℕ :=
  (m.map (fun row => row.count 1)).sum

/-- The colour palette list `[1, 2, 3, 4]` of the post-processing pass. -/
def wallPalette : List ℕ := [1, 2, 3, 4]

/-- One row of the colour post-processing pass: cell `(x, y)` keeps `0` if it
is a corridor and otherwise receives `random.choice([1, 2, 3, 4])`, modelled
as the `rand y x % 4`-th palette entry. -/
def colorRow (rand : ℕ → ℕ → ℕ) (y : ℕ) : ℕ → List ℕ → List ℕ
  | _, [] => []
  | x, v :: vs =>
    (if v = 0 then v else wallPalette.getD (rand y x % wallPalette.length) 1) ::
      colorRow rand y (x + 1) vs

/-- Rows `y, y + 1, ...` of the colour post-processing pass. -/
def colorRows (rand : ℕ → ℕ → ℕ) : ℕ → List (List ℕ) → List (List ℕ)
  | _, [] => []
  | y, row :: rows => colorRow rand y 0 row :: colorRows rand (y + 1) rows

/-- The post-processing pass of `main` (lines 62-65): every non-zero cell is
replaced by a random palette index. -/
def colorize (rand : ℕ → ℕ → ℕ) (m : List (List ℕ)) : List (List ℕ) :=
  colorRows rand 0 m

/-- The `WALL_COLORS` dictionary, as a partial lookup (`dict.get`). -/
def WALL_COLORS : ℕ → Option (ℕ × ℕ × ℕ)
  | 1 => some (0, 0, 255)
  | 2 => some (255, 0, 0)
  | 3 => some (0, 255, 0)
  | 4 => some (255, 255, 0)
  | _ => none

/-- Python's `int()` on a float: truncation toward zero. -/
def pyInt (q : ℚ) : ℤ := if 0 ≤ q then ⌊q⌋ else ⌈q⌉

/-- Python list indexing `l[i]` with an `Int` index: nonnegative indices read
from the front, indices in `[-len, 0)` wrap around, and anything else raises
`IndexError` - modelled by the default `d` (on the movement path a raised
`IndexError` aborts the program, so the camera likewise never moves). -/
def pyGet {α : Type} (d : α) (l : List α) (i : ℤ) : α :=
  if 0 ≤ i then l.getD i.toNat d
  else if 0 ≤ i + l.length then l.getD (i + l.length).toNat d
  else d

/-- `maze[row][col]` with `Int` indices, as used by the collision checks. -/
def mazeAt (m : List (List ℕ)) (row col : ℤ) : ℕ :=
  pyGet 1 (pyGet [] m row) col

/-- The camera state: position, facing direction and view plane. -/
structure Camera where
  posX : ℚ
  posY : ℚ
  dirX : ℚ
  dirY : ℚ
  planeX : ℚ
  planeY : ℚ

/-- `move_speed = 0.05` -/
def move_speed : ℚ := 1 / 20

/-- One forward (`sgn = 1`, key E) or backward (`sgn = -1`, key D) movement
tick (lines 86-100): the X update is applied only if
`maze[int(posY)][int(newX)] == 0`, and then the Y update only if
`maze[int(newY)][int(posX)] == 0` where `posX` is the already-updated value. -/
def moveStep (m : List (List ℕ)) (sgn : ℚ) (cam : Camera) : Camera :=
  let newX := cam.posX + sgn * cam.dirX * move_speed
  let newY := cam.posY + sgn * cam.dirY * move_speed
  let posX' := if mazeAt m (pyInt cam.posY) (pyInt newX) = 0 then newX else cam.posX
  let posY' := if mazeAt m (pyInt newY) (pyInt posX') = 0 then newY else cam.posY
  { cam with posX := posX', posY := posY' }

/-- One rotation tick (lines 102-118) by the rotation matrix with entries
`c = cos(angle)` and `s = sin(angle)`; `angle = rot_speed` for key F and
`-rot_speed` for key S, so every key press yields a pair with
`c ^ 2 + s ^ 2 = 1`.  Both `dir` and `plane` are multiplied by the same
matrix, the source's `oldDirX`/`oldPlaneX` temporaries corresponding to the
simultaneous update below. -/
def rotStep (c s : ℚ) (cam : Camera) : Camera :=
  { cam with
    dirX := cam.dirX * c - cam.dirY * s
    dirY := cam.dirX * s + cam.dirY * c
    planeX := cam.planeX * c - cam.planeY * s
    planeY := cam.planeX * s + cam.planeY * c }

/-- A per-tick camera command. -/
inductive Cmd where
  | forward
  | backward
  | rot (c s : ℚ)

/-- Apply one command. -/
def applyCmd (m : List (List ℕ)) (cmd : Cmd) (cam : Camera) : Camera :=
  match cmd with
  | .forward => moveStep m 1 cam
  | .backward => moveStep m (-1) cam
  | .rot c s => rotStep c s cam

/-- Apply a sequence of commands. -/
def applyCmds (m : List (List ℕ)) (cmds : List Cmd) (cam : Camera) : Camera :=
  cmds.foldl (fun c cmd => applyCmd m cmd c) cam

-- ============================================================
-- DDA raycasting (lines 125-198)
-- ============================================================

/-- Python float division, which raises `ZeroDivisionError` on a zero
divisor (modelled by `none`). -/
def pydiv (a b : ℚ) : Option ℚ := if b = 0 then none else some (a / b)

/-- `deltaDistX = abs(1 / rayDirX) if rayDirX != 0 else 1e30` -/
def deltaDist (r : ℚ) : ℚ := if r ≠ 0 then |1 / r| else 10 ^ 30

/-- `stepX` and the initial `sideDistX` (lines 140-151): step `-1` with
`(pos - map) * delta` for a negative ray component, else step `+1` with
`(map + 1.0 - pos) * delta`.  In particular a zero component and its
`1e30` delta default to step `+1`. -/
def stepAndSide (r pos : ℚ) (map : ℤ) (delta : ℚ) : ℤ × ℚ :=
  if r < 0 then (-1, (pos - map) * delta) else (1, ((map : ℚ) + 1 - pos) * delta)

/-- The mutable state of the DDA loop.  `side` is `none` before the first
iteration (Python's `side = None`). -/
structure DdaState where
  mapX : ℤ
  mapY : ℤ
  sideDistX : ℚ
  sideDistY : ℚ
  side : Option ℕ
deriving DecidableEq

/-- The out-of-bounds test
`mapX < 0 or mapX >= maze_width or mapY < 0 or mapY >= maze_height`. -/
def oobMap (w h : ℕ) (mx my : ℤ) : Bool :=
  mx < 0 || (w : ℤ) ≤ mx || my < 0 || (h : ℤ) ≤ my

/-- One iteration of the DDA loop body (lines 157-165): advance along the
axis with the smaller accumulated side distance. -/
def ddaStep (stepX stepY : ℤ) (dX dY : ℚ) (s : DdaState) : DdaState :=
  if s.sideDistX < s.sideDistY then
    { s with sideDistX := s.sideDistX + dX, mapX := s.mapX + stepX, side := some 0 }
  else
    { s with sideDistY := s.sideDistY + dY, mapY := s.mapY + stepY, side := some 1 }

/-- The DDA loop `while not hit:` (lines 156-172) with explicit fuel;
`none` would mean fuel exhaustion, and the termination theorems show the
fuel used by `castRay` is never exhausted.  After each advance the loop
first breaks on an out-of-bounds cell and otherwise hits on a non-zero
cell. -/
def ddaRun (w h : ℕ) (m : List (List ℕ)) (stepX stepY : ℤ) (dX dY : ℚ) :
    ℕ → DdaState → Option DdaState
  | 0, _ => none
  | fuel + 1, s =>
    let s' := ddaStep stepX stepY dX dY s
    if oobMap w h s'.mapX s'.mapY then some s'
    else if getCell m s'.mapX.toNat s'.mapY.toNat ≠ 0 then some s'
    else ddaRun w h m stepX stepY dX dY fuel s'

/-- In-bounds cells left along the x axis in the fixed travel direction. -/
def ddaMeasureX (w : ℕ) (stepX mx : ℤ) : ℕ :=
  if stepX = 1 then ((w : ℤ) - mx).toNat else (mx + 1).toNat

/-- In-bounds cells left along the y axis in the fixed travel direction. -/
def ddaMeasureY (h : ℕ) (stepY my : ℤ) : ℕ :=
  if stepY = 1 then ((h : ℤ) - my).toNat else (my + 1).toNat

/-- Fuel bound for `ddaRun`: the number of in-bounds cells left in the fixed
travel direction of each axis.  Every continuing iteration decreases it. -/
def ddaMeasure (w h : ℕ) (stepX stepY : ℤ) (mx my : ℤ) : ℕ :=
  ddaMeasureX w stepX mx + ddaMeasureY h stepY my

/-- The full per-column ray traversal (lines 131-172): initial map square
`int(pos)`, per-axis delta distances, steps and initial side distances, then
the DDA loop, with fuel `w + h + 2` (sufficient from any in-grid start). -/
def castRay (w h : ℕ) (m : List (List ℕ)) (posX posY rayDirX rayDirY : ℚ) :
    Option DdaState :=
  let mapX := pyInt posX
  let mapY := pyInt posY
  let dX := deltaDist rayDirX
  let dY := deltaDist rayDirY
  let px := stepAndSide rayDirX posX mapX dX
  let py := stepAndSide rayDirY posY mapY dY
  ddaRun w h m px.1 py.1 dX dY (w + h + 2)
    ⟨mapX, mapY, px.2, py.2, none⟩

/-- The perpendicular wall distance (lines 175-178): the division is on the
axis recorded in `side` (`side == 0` reads the x-axis, anything else - in the
source always `side == 1` - the y-axis). -/
def perpDist (posX posY rayDirX rayDirY : ℚ) (stepX stepY : ℤ) (r : DdaState) :
    Option ℚ :=
  if r.side = some 0 then
    pydiv ((r.mapX : ℚ) - posX + (1 - (stepX : ℚ)) / 2) rayDirX
  else
    pydiv ((r.mapY : ℚ) - posY + (1 - (stepY : ℚ)) / 2) rayDirY

/-- `int(c * 0.8)`, the per-channel shading factor.  For every channel value
`c ≤ 255` the double `0.8` exceeds `4 / 5` by less than `2 ^ -53`, so
`int(c * 0.8) = c * 4 / 5` over `ℕ`. -/
def pyShade (c : ℕ) : ℕ := c * 4 / 5

/-- The colour chosen for a column (lines 186-195): white for an
out-of-bounds miss, otherwise `WALL_COLORS.get(wall_type, white)`; the
result - whatever it is - is darkened when the last step was a y-side. -/
def columnColor (w h : ℕ) (m : List (List ℕ)) (r : DdaState) : ℕ × ℕ × ℕ :=
  let base :=
    if oobMap w h r.mapX r.mapY then (255, 255, 255)
    else (WALL_COLORS (getCell m r.mapX.toNat r.mapY.toNat)).getD (255, 255, 255)
  if r.side = some 1 then (pyShade base.1, pyShade base.2.1, pyShade base.2.2)
  else base

-- ============================================================
-- The junction lattice, reachability and counting
-- ============================================================

/-- Two cells are 4-adjacent. -/
def Adj (p q : ℕ × ℕ) : Prop :=
  (p.1 = q.1 ∧ (p.2 + 1 = q.2 ∨ q.2 + 1 = p.2)) ∨
    (p.2 = q.2 ∧ (p.1 + 1 = q.1 ∨ q.1 + 1 = p.1))

/-- `q` is reachable from `p` through Empty cells of `m` (every cell entered
along the way is Empty). -/
def Reach (m : List (List ℕ)) (p q : ℕ × ℕ) : Prop :=
  Relation.ReflTransGen (fun a b => Adj a b ∧ getCell m b.1 b.2 = 0) p q

/-- The Empty junction cells: both coordinates odd. -/
def junctionCount (w h : ℕ) (m : List (List ℕ)) : ℕ :=
  ((Finset.range w ×ˢ Finset.range h).filter
    (fun p => (p.1 % 2 = 1 ∧ p.2 % 2 = 1) ∧ getCell m p.1 p.2 = 0)).card

/-- The opened walls between junctions: Empty cells with exactly one odd
coordinate (each one is the unique cell between the two junctions it
connects, so these are exactly the junction-graph edges). -/
def edgeCount (w h : ℕ) (m : List (List ℕ)) : ℕ :=
  ((Finset.range w ×ˢ Finset.range h).filter
    (fun p => (p.1 % 2 + p.2 % 2 = 1) ∧ getCell m p.1 p.2 = 0)).card

/-- The loop invariant of `carve`, tying the grid and the stack together. -/
structure CarveInv (w h : ℕ) (m : List (List ℕ)) (stack : List (ℕ × ℕ)) : Prop where
  rows : m.length = h
  cols : ∀ row ∈ m, row.length = w
  vals : ∀ x y, getCell m x y = 0 ∨ getCell m x y = 1
  origin : getCell m 1 1 = 0
  stackOk : ∀ p ∈ stack, p.1 % 2 = 1 ∧ p.2 % 2 = 1 ∧
    0 < p.1 ∧ p.1 < w - 1 ∧ 0 < p.2 ∧ p.2 < h - 1 ∧ getCell m p.1 p.2 = 0
  interior : ∀ x y, getCell m x y = 0 →
    0 < x ∧ x < w - 1 ∧ 0 < y ∧ y < h - 1
  shape : ∀ x y, getCell m x y = 0 →
    (x % 2 = 1 ∧ y % 2 = 1) ∨
    (x % 2 = 0 ∧ y % 2 = 1 ∧ getCell m (x - 1) y = 0 ∧ getCell m (x + 1) y = 0) ∨
    (x % 2 = 1 ∧ y % 2 = 0 ∧ getCell m x (y - 1) = 0 ∧ getCell m x (y + 1) = 0)
  reach : ∀ x y, getCell m x y = 0 → Reach m (1, 1) (x, y)
  count : junctionCount w h m = edgeCount w h m + 1

/-- The grid-only part of the invariant, surviving after the stack empties. -/
structure GridInv (w h : ℕ) (m : List (List ℕ)) : Prop where
  rows : m.length = h
  cols : ∀ row ∈ m, row.length = w
  vals : ∀ x y, getCell m x y = 0 ∨ getCell m x y = 1
  origin : getCell m 1 1 = 0
  interior : ∀ x y, getCell m x y = 0 →
    0 < x ∧ x < w - 1 ∧ 0 < y ∧ y < h - 1
  reach : ∀ x y, getCell m x y = 0 → Reach m (1, 1) (x, y)
  count : junctionCount w h m = edgeCount w h m + 1

-- ============================================================
-- Theorems
-- ============================================================

theorem getD_replicate_nat (n : ℕ) (v : ℕ) (i d : ℕ) :
    (List.replicate n v).getD i d = if i < n then v else d := by
  split
  · next h =>
    rw [List.getD_eq_getElem _ _ (by simpa using h)]
    simp
  · next h =>
    rw [List.getD_eq_default _ _ (by simpa using Nat.le_of_not_lt h)]

theorem getD_replicate_row (n : ℕ) (v : List ℕ) (i : ℕ) (d : List ℕ) :
    (List.replicate n v).getD i d = if i < n then v else d := by
  split
  · next h =>
    rw [List.getD_eq_getElem _ _ (by simpa using h)]
    simp
  · next h =>
    rw [List.getD_eq_default _ _ (by simpa using Nat.le_of_not_lt h)]

theorem getCell_initMaze (w h x y : ℕ) : getCell (initMaze w h) x y = 1 := by
  unfold getCell initMaze
  rw [getD_replicate_row]
  split
  · rw [getD_replicate_nat]
    split <;> rfl
  · simp [List.getD]

theorem getD_set_ne {α : Type} {l : List α} {i j : ℕ} (v : α) (d : α) (h : i ≠ j) :
    (l.set i v).getD j d = l.getD j d := by
  simp [List.getD, List.getElem?_set_ne h]

theorem getD_set_self {α : Type} {l : List α} {i : ℕ} (v : α) (d : α)
    (h : i < l.length) : (l.set i v).getD i d = v := by
  simp [List.getD, List.getElem?_set_self h]

theorem getD_mem {α : Type} {l : List α} {n : ℕ} {d : α} (h : n < l.length) :
    l.getD n d ∈ l := by
  rw [List.getD_eq_getElem l d h]
  exact List.getElem_mem h

/-- Row `y` of a well-formed grid has length `w`. -/
theorem rowLen {w h : ℕ} {m : List (List ℕ)} (hrows : m.length = h)
    (hcols : ∀ row ∈ m, row.length = w) {y : ℕ} (hy : y < h) :
    (m.getD y []).length = w := by
  exact hcols _ (getD_mem (by omega))

theorem rows_setCell (m : List (List ℕ)) (x y v : ℕ) :
    (setCell m x y v).length = m.length := by
  simp [setCell]

theorem cols_setCell {w : ℕ} (m : List (List ℕ)) (x y v : ℕ)
    (hcols : ∀ row ∈ m, row.length = w) :
    ∀ row ∈ setCell m x y v, row.length = w := by
  intro row hrow
  rcases lt_or_le y m.length with hy | hy
  · rcases List.mem_or_eq_of_mem_set hrow with h | h
    · exact hcols _ h
    · subst h
      rw [List.length_set]
      exact hcols _ (getD_mem hy)
  · rw [setCell, List.set_eq_of_length_le hy] at hrow
    exact hcols _ hrow

/-- The single pointwise description of `setCell` for an in-range write. -/
theorem getCell_setCell {w h : ℕ} {m : List (List ℕ)} (hrows : m.length = h)
    (hcols : ∀ row ∈ m, row.length = w) {x y : ℕ} (v : ℕ)
    (hx : x < w) (hy : y < h) :
    ∀ a b, getCell (setCell m x y v) a b =
      if a = x ∧ b = y then v else getCell m a b := by
  intro a b
  unfold getCell setCell
  by_cases hb : b = y
  · subst hb
    have hylen : b < m.length := by omega
    have houter : (m.set b ((m.getD b []).set x v)).getD b [] =
        (m.getD b []).set x v :=
      getD_set_self _ _ hylen
    rw [houter]
    by_cases ha : a = x
    · subst ha
      rw [getD_set_self _ _ (by rw [rowLen hrows hcols hy]; exact hx)]
      simp
    · rw [getD_set_ne _ _ (fun hxa => ha hxa.symm)]
      simp [ha]
  · rw [getD_set_ne _ _ (fun hyb => hb hyb.symm)]
    simp [hb]

/-- Growing the set of Empty cells preserves reachability. -/
theorem Reach.mono {m m' : List (List ℕ)}
    (hsub : ∀ x y, getCell m x y = 0 → getCell m' x y = 0) {p q : ℕ × ℕ}
    (h : Reach m p q) : Reach m' p q :=
  Relation.ReflTransGen.mono (fun a b hab => ⟨hab.1, hsub _ _ hab.2⟩) h

/-- Opening a fresh Wall cell that satisfies the counted predicate increases
the count by one. -/
theorem filter_card_open_hit {w h : ℕ} {m m' : List (List ℕ)}
    (P : ℕ × ℕ → Prop) [DecidablePred P] {u v : ℕ}
    (hu : u < w) (hv : v < h) (hP : P (u, v)) (hwall : getCell m u v ≠ 0)
    (hcell : ∀ a b, getCell m' a b = if a = u ∧ b = v then 0 else getCell m a b) :
    ((Finset.range w ×ˢ Finset.range h).filter
        (fun p => P p ∧ getCell m' p.1 p.2 = 0)).card =
      ((Finset.range w ×ˢ Finset.range h).filter
        (fun p => P p ∧ getCell m p.1 p.2 = 0)).card + 1 := by
  have hset : (Finset.range w ×ˢ Finset.range h).filter
      (fun p => P p ∧ getCell m' p.1 p.2 = 0) =
      insert (u, v) ((Finset.range w ×ˢ Finset.range h).filter
        (fun p => P p ∧ getCell m p.1 p.2 = 0)) := by
    ext ⟨a, b⟩
    simp only [Finset.mem_filter, Finset.mem_insert, Finset.mem_product,
      Finset.mem_range, Prod.mk.injEq]
    constructor
    · rintro ⟨⟨ha, hb⟩, hPp, hcl⟩
      rw [hcell] at hcl
      by_cases hab : a = u ∧ b = v
      · exact Or.inl ⟨hab.1, hab.2⟩
      · right
        rw [if_neg hab] at hcl
        exact ⟨⟨ha, hb⟩, hPp, hcl⟩
    · rintro (⟨ha, hb⟩ | ⟨⟨ha, hb⟩, hPp, hcl⟩)
      · subst ha; subst hb
        exact ⟨⟨hu, hv⟩, hP, by rw [hcell]; simp⟩
      · refine ⟨⟨ha, hb⟩, hPp, ?_⟩
        rw [hcell]
        split
        · rfl
        · exact hcl
  rw [hset, Finset.card_insert_of_not_mem]
  simp only [Finset.mem_filter, not_and]
  intro _ _
  exact hwall

/-- Opening a cell that misses the counted predicate leaves the count
unchanged. -/
theorem filter_card_open_miss {w h : ℕ} {m m' : List (List ℕ)}
    (P : ℕ × ℕ → Prop) [DecidablePred P] {u v : ℕ}
    (hP : ¬ P (u, v))
    (hcell : ∀ a b, getCell m' a b = if a = u ∧ b = v then 0 else getCell m a b) :
    ((Finset.range w ×ˢ Finset.range h).filter
        (fun p => P p ∧ getCell m' p.1 p.2 = 0)).card =
      ((Finset.range w ×ˢ Finset.range h).filter
        (fun p => P p ∧ getCell m p.1 p.2 = 0)).card := by
  congr 1
  ext ⟨a, b⟩
  simp only [Finset.mem_filter]
  constructor
  · rintro ⟨hmem, hPp, hcl⟩
    refine ⟨hmem, hPp, ?_⟩
    rw [hcell] at hcl
    rcases eq_or_ne (a, b) (u, v) with hab | hab
    · exact absurd (hab ▸ hPp) hP
    · rwa [if_neg (by simpa [Prod.ext_iff] using hab)] at hcl
  · rintro ⟨hmem, hPp, hcl⟩
    refine ⟨hmem, hPp, ?_⟩
    rw [hcell]
    split
    · rfl
    · exact hcl

theorem length_colorRow (rand : ℕ → ℕ → ℕ) (y : ℕ) :
    ∀ x row, (colorRow rand y x row).length = row.length := by
  intro x row
  induction row generalizing x with
  | nil => rfl
  | cons v vs ih => simp [colorRow, ih]

theorem getCell_eq_zero_of_eq {M : List (List ℕ)} {a b a' b' : ℕ}
    (h : getCell M a b = 0) (ha : a' = a) (hb : b' = b) : getCell M a' b' = 0 := by
  subst ha
  subst hb
  exact h

/-- Invariant preservation for one push step of `carve`: the chosen
neighbour junction `(cx, cy)` and the wall cell `(mx, my)` between it and
the stack top `(x, y)` are both opened. -/
theorem push_core {w h : ℕ} {m : List (List ℕ)} {stack : List (ℕ × ℕ)}
    {x y cx cy mx my : ℕ}
    (inv : CarveInv w h m ((x, y) :: stack))
    (hcb : 0 < cx ∧ cx < w - 1 ∧ 0 < cy ∧ cy < h - 1)
    (hcwall : getCell m cx cy = 1)
    (hcpar : cx % 2 = 1 ∧ cy % 2 = 1)
    (hmb : 0 < mx ∧ mx < w - 1 ∧ 0 < my ∧ my < h - 1)
    (hnb : (mx % 2 = 0 ∧ my % 2 = 1 ∧ cy = my ∧ y = my ∧
             ((cx = mx + 1 ∧ x = mx - 1) ∨ (cx = mx - 1 ∧ x = mx + 1))) ∨
           (mx % 2 = 1 ∧ my % 2 = 0 ∧ cx = mx ∧ x = mx ∧
             ((cy = my + 1 ∧ y = my - 1) ∨ (cy = my - 1 ∧ y = my + 1)))) :
    CarveInv w h (setCell (setCell m cx cy 0) mx my 0)
      ((cx, cy) :: (x, y) :: stack) := by
  obtain ⟨hcx0, hcxw, hcy0, hcyh⟩ := hcb
  obtain ⟨hmx0, hmxw, hmy0, hmyh⟩ := hmb
  have hw3 : 3 ≤ w := by omega
  have hh3 : 3 ≤ h := by omega
  have hxy := inv.stackOk (x, y) (List.mem_cons_self _ _)
  obtain ⟨hxpar, hypar, hx0, hxw, hy0, hyh, hxyempty⟩ := hxy
  have hneq : ¬ (cx = mx ∧ cy = my) := by
    rcases hnb with ⟨h1, h2, h3, h4, h5 | h5⟩ | ⟨h1, h2, h3, h4, h5 | h5⟩ <;> omega
  have hcell1 : ∀ a b, getCell (setCell m cx cy 0) a b =
      if a = cx ∧ b = cy then 0 else getCell m a b :=
    getCell_setCell inv.rows inv.cols 0 (by omega) (by omega)
  have rows1 : (setCell m cx cy 0).length = h := by
    rw [rows_setCell]; exact inv.rows
  have cols1 := cols_setCell (w := w) m cx cy 0 inv.cols
  have hcell2 : ∀ a b, getCell (setCell (setCell m cx cy 0) mx my 0) a b =
      if a = mx ∧ b = my then 0 else getCell (setCell m cx cy 0) a b :=
    getCell_setCell rows1 cols1 0 (by omega) (by omega)
  have hcell' : ∀ a b, getCell (setCell (setCell m cx cy 0) mx my 0) a b =
      if a = mx ∧ b = my then 0 else
        if a = cx ∧ b = cy then 0 else getCell m a b := by
    intro a b
    rw [hcell2 a b, hcell1 a b]
  have hmono : ∀ a b, getCell m a b = 0 →
      getCell (setCell (setCell m cx cy 0) mx my 0) a b = 0 := by
    intro a b hab
    rw [hcell' a b]
    split
    · rfl
    split
    · rfl
    exact hab
  have hmidwall : getCell m mx my = 1 := by
    rcases inv.vals mx my with hv | hv
    · exfalso
      rcases inv.shape mx my hv with ⟨hp1, hp2⟩ | ⟨hp1, hp2, hg1, hg2⟩ |
        ⟨hp1, hp2, hg1, hg2⟩
      · rcases hnb with ⟨h1, _⟩ | ⟨_, h2, _⟩ <;> omega
      · -- both horizontal neighbours of the wall cell are Empty; one is the
        -- chosen junction, which is Wall
        rcases hnb with ⟨h1, h2, h3, h4, ⟨h5, h6⟩ | ⟨h5, h6⟩⟩ |
          ⟨h1, h2, h3, h4, h5⟩
        · rw [h5, h3] at hcwall
          rw [hcwall] at hg2
          omega
        · rw [h5, h3] at hcwall
          rw [hcwall] at hg1
          omega
        · omega
      · rcases hnb with ⟨h1, h2, h3, h4, h5⟩ |
          ⟨h1, h2, h3, h4, ⟨h5, h6⟩ | ⟨h5, h6⟩⟩
        · omega
        · rw [h5, h3] at hcwall
          rw [hcwall] at hg2
          omega
        · rw [h5, h3] at hcwall
          rw [hcwall] at hg1
          omega
    · exact hv
  have hcempty : getCell (setCell (setCell m cx cy 0) mx my 0) cx cy = 0 := by
    rw [hcell' cx cy, if_neg hneq, if_pos ⟨rfl, rfl⟩]
  have hmidempty : getCell (setCell (setCell m cx cy 0) mx my 0) mx my = 0 := by
    rw [hcell' mx my, if_pos ⟨rfl, rfl⟩]
  have hadj1 : Adj (x, y) (mx, my) := by
    simp only [Adj]
    rcases hnb with ⟨h1, h2, h3, h4, h5 | h5⟩ | ⟨h1, h2, h3, h4, h5 | h5⟩ <;> omega
  have hadj2 : Adj (mx, my) (cx, cy) := by
    simp only [Adj]
    rcases hnb with ⟨h1, h2, h3, h4, h5 | h5⟩ | ⟨h1, h2, h3, h4, h5 | h5⟩ <;> omega
  have hreachmid : Reach (setCell (setCell m cx cy 0) mx my 0) (1, 1) (mx, my) :=
    Relation.ReflTransGen.tail
      (Reach.mono hmono (inv.reach x y hxyempty)) ⟨hadj1, hmidempty⟩
  have hreachc : Reach (setCell (setCell m cx cy 0) mx my 0) (1, 1) (cx, cy) :=
    Relation.ReflTransGen.tail hreachmid ⟨hadj2, hcempty⟩
  refine ⟨?_, ?_, ?_, ?_, ?_, ?_, ?_, ?_, ?_⟩
  · rw [rows_setCell]; exact rows1
  · exact cols_setCell _ mx my 0 cols1
  · intro a b
    rw [hcell' a b]
    split
    · exact Or.inl rfl
    split
    · exact Or.inl rfl
    exact inv.vals a b
  · rw [hcell' 1 1]
    split
    · rfl
    split
    · rfl
    exact inv.origin
  · intro p hp
    rcases List.mem_cons.mp hp with hpc | hpold
    · subst hpc
      exact ⟨hcpar.1, hcpar.2, hcx0, hcxw, hcy0, hcyh, hcempty⟩
    · obtain ⟨hp1, hp2, hp3, hp4, hp5, hp6, hp7⟩ := inv.stackOk p hpold
      exact ⟨hp1, hp2, hp3, hp4, hp5, hp6, hmono _ _ hp7⟩
  · intro a b hab
    rw [hcell' a b] at hab
    split at hab
    · next hh => omega
    split at hab
    · next hh => omega
    exact inv.interior a b hab
  · intro a b hab
    rw [hcell' a b] at hab
    split at hab
    · next hh =>
      obtain ⟨ha, hb⟩ := hh
      subst ha
      subst hb
      rcases hnb with ⟨h1, h2, h3, h4, ⟨h5, h6⟩ | ⟨h5, h6⟩⟩ |
        ⟨h1, h2, h3, h4, ⟨h5, h6⟩ | ⟨h5, h6⟩⟩
      · refine Or.inr (Or.inl ⟨h1, h2, ?_, ?_⟩)
        · exact getCell_eq_zero_of_eq (hmono x y hxyempty) (by omega) (by omega)
        · exact getCell_eq_zero_of_eq hcempty (by omega) (by omega)
      · refine Or.inr (Or.inl ⟨h1, h2, ?_, ?_⟩)
        · exact getCell_eq_zero_of_eq hcempty (by omega) (by omega)
        · exact getCell_eq_zero_of_eq (hmono x y hxyempty) (by omega) (by omega)
      · refine Or.inr (Or.inr ⟨h1, h2, ?_, ?_⟩)
        · exact getCell_eq_zero_of_eq (hmono x y hxyempty) (by omega) (by omega)
        · exact getCell_eq_zero_of_eq hcempty (by omega) (by omega)
      · refine Or.inr (Or.inr ⟨h1, h2, ?_, ?_⟩)
        · exact getCell_eq_zero_of_eq hcempty (by omega) (by omega)
        · exact getCell_eq_zero_of_eq (hmono x y hxyempty) (by omega) (by omega)
    split at hab
    · next hh =>
      obtain ⟨ha, hb⟩ := hh
      subst ha
      subst hb
      exact Or.inl hcpar
    · rcases inv.shape a b hab with ⟨hp1, hp2⟩ | ⟨hp1, hp2, hg1, hg2⟩ |
        ⟨hp1, hp2, hg1, hg2⟩
      · exact Or.inl ⟨hp1, hp2⟩
      · exact Or.inr (Or.inl ⟨hp1, hp2, hmono _ _ hg1, hmono _ _ hg2⟩)
      · exact Or.inr (Or.inr ⟨hp1, hp2, hmono _ _ hg1, hmono _ _ hg2⟩)
  · intro a b hab
    rw [hcell' a b] at hab
    split at hab
    · next hh =>
      obtain ⟨ha, hb⟩ := hh
      subst ha
      subst hb
      exact hreachmid
    split at hab
    · next hh =>
      obtain ⟨ha, hb⟩ := hh
      subst ha
      subst hb
      exact hreachc
    · exact Reach.mono hmono (inv.reach a b hab)
  · have hJ1 : junctionCount w h (setCell m cx cy 0) = junctionCount w h m + 1 :=
      filter_card_open_hit (fun p => p.1 % 2 = 1 ∧ p.2 % 2 = 1)
        (by omega) (by omega) hcpar (by rw [hcwall]; exact one_ne_zero) hcell1
    have hJ2 : junctionCount w h (setCell (setCell m cx cy 0) mx my 0) =
        junctionCount w h (setCell m cx cy 0) :=
      filter_card_open_miss (fun p => p.1 % 2 = 1 ∧ p.2 % 2 = 1)
        (by rcases hnb with ⟨h1, _⟩ | ⟨_, h2, _⟩ <;> omega) hcell2
    have hE1 : edgeCount w h (setCell m cx cy 0) = edgeCount w h m :=
      filter_card_open_miss (fun p => p.1 % 2 + p.2 % 2 = 1)
        (by omega) hcell1
    have hE2 : edgeCount w h (setCell (setCell m cx cy 0) mx my 0) =
        edgeCount w h (setCell m cx cy 0) + 1 :=
      filter_card_open_hit (fun p => p.1 % 2 + p.2 % 2 = 1)
        (by omega) (by omega)
        (by rcases hnb with ⟨h1, h2, _⟩ | ⟨h1, h2, _⟩ <;> omega)
        (by rw [hcell1 mx my, if_neg (by
              intro hh
              exact hneq ⟨hh.1.symm, hh.2.symm⟩), hmidwall]
            exact one_ne_zero)
        hcell2
    rw [hJ2, hJ1, hE2, hE1, inv.count]

/-- Any member of the `neighbors` list yields a valid push step. -/
theorem carve_push {w h : ℕ} {m : List (List ℕ)} {stack : List (ℕ × ℕ)}
    {x y : ℕ} {c : ℕ × ℕ} (inv : CarveInv w h m ((x, y) :: stack))
    (hc : c ∈ neighbors w h m x y) :
    CarveInv w h (setCell (setCell m c.1 c.2 0) ((x + c.1) / 2) ((y + c.2) / 2) 0)
      (c :: (x, y) :: stack) := by
  obtain ⟨hxpar, hypar, hx0, hxw, hy0, hyh, hxyempty⟩ :=
    inv.stackOk (x, y) (List.mem_cons_self _ _)
  rw [neighbors, List.mem_filter] at hc
  obtain ⟨hmem, hpredb⟩ := hc
  have hpred : 0 < c.1 ∧ c.1 < w - 1 ∧ 0 < c.2 ∧ c.2 < h - 1 ∧
      getCell m c.1 c.2 = 1 := by
    simp only [Bool.and_eq_true, decide_eq_true_eq, beq_iff_eq] at hpredb
    tauto
  obtain ⟨h1, h2, h3, h4, h5⟩ := hpred
  simp only [List.mem_cons, List.not_mem_nil, or_false] at hmem
  rcases hmem with hcval | hcval | hcval | hcval <;> subst hcval <;>
    simp only at h1 h2 h3 h4 h5 ⊢
  · have hm1 : (x + (x + 2)) / 2 = x + 1 := by omega
    have hm2 : (y + y) / 2 = y := by omega
    rw [hm1, hm2]
    exact push_core inv ⟨h1, h2, h3, h4⟩ h5 (by omega)
      (by omega) (Or.inl ⟨by omega, by omega, rfl, rfl, Or.inl ⟨by omega, by omega⟩⟩)
  · have hm1 : (x + (x - 2)) / 2 = x - 1 := by omega
    have hm2 : (y + y) / 2 = y := by omega
    rw [hm1, hm2]
    exact push_core inv ⟨h1, h2, h3, h4⟩ h5 (by omega)
      (by omega) (Or.inl ⟨by omega, by omega, rfl, rfl, Or.inr ⟨by omega, by omega⟩⟩)
  · have hm1 : (x + x) / 2 = x := by omega
    have hm2 : (y + (y + 2)) / 2 = y + 1 := by omega
    rw [hm1, hm2]
    exact push_core inv ⟨h1, h2, h3, h4⟩ h5 (by omega)
      (by omega) (Or.inr ⟨by omega, by omega, rfl, rfl, Or.inl ⟨by omega, by omega⟩⟩)
  · have hm1 : (x + x) / 2 = x := by omega
    have hm2 : (y + (y - 2)) / 2 = y - 1 := by omega
    rw [hm1, hm2]
    exact push_core inv ⟨h1, h2, h3, h4⟩ h5 (by omega)
      (by omega) (Or.inr ⟨by omega, by omega, rfl, rfl, Or.inr ⟨by omega, by omega⟩⟩)

/-- Forgetting the stack part of the invariant. -/
theorem CarveInv.toGrid {w h : ℕ} {m : List (List ℕ)} {stack : List (ℕ × ℕ)}
    (inv : CarveInv w h m stack) : GridInv w h m :=
  ⟨inv.rows, inv.cols, inv.vals, inv.origin, inv.interior, inv.reach, inv.count⟩

/-- The invariant survives the whole carving loop, whatever the fuel. -/
theorem carve_inv (w h : ℕ) (rand : ℕ → ℕ) (fuel : ℕ) :
    ∀ (m : List (List ℕ)) (stack : List (ℕ × ℕ)) (k : ℕ),
      CarveInv w h m stack → GridInv w h (carve w h rand fuel m stack k) := by
  induction fuel with
  | zero =>
    intro m stack k inv
    exact inv.toGrid
  | succ n ih =>
    intro m stack k inv
    match stack with
    | [] => exact inv.toGrid
    | (x, y) :: stack =>
      rw [carve]
      split
      · refine ih m stack k ⟨inv.rows, inv.cols, inv.vals, inv.origin, ?_,
          inv.interior, inv.shape, inv.reach, inv.count⟩
        intro p hp
        exact inv.stackOk p (List.mem_cons_of_mem _ hp)
      · next hne =>
        have hlen : 0 < (neighbors w h m x y).length := by
          cases hnb : neighbors w h m x y with
          | nil => rw [hnb] at hne; simp [List.isEmpty] at hne
          | cons a l => simp
        exact ih _ _ _ (carve_push inv (getD_mem (Nat.mod_lt _ hlen)))

/-- The invariant holds before the loop starts (for `w, h ≥ 3`). -/
theorem carve_base (w h : ℕ) (hw : 3 ≤ w) (hh : 3 ≤ h) :
    CarveInv w h (setCell (initMaze w h) 1 1 0) [(1, 1)] := by
  have hrows0 : (initMaze w h).length = h := by simp [initMaze]
  have hcols0 : ∀ row ∈ initMaze w h, row.length = w := by
    intro row hrow
    rw [initMaze] at hrow
    rw [List.eq_of_mem_replicate hrow]
    simp
  have hcell0 : ∀ a b, getCell (setCell (initMaze w h) 1 1 0) a b =
      if a = 1 ∧ b = 1 then 0 else 1 := by
    intro a b
    rw [getCell_setCell hrows0 hcols0 0 (by omega) (by omega) a b,
      getCell_initMaze]
  refine ⟨?_, ?_, ?_, ?_, ?_, ?_, ?_, ?_, ?_⟩
  · rw [rows_setCell]; exact hrows0
  · exact cols_setCell _ 1 1 0 hcols0
  · intro a b
    rw [hcell0 a b]
    split
    · exact Or.inl rfl
    · exact Or.inr rfl
  · rw [hcell0 1 1]
    simp
  · intro p hp
    simp only [List.mem_cons, List.not_mem_nil, or_false] at hp
    subst hp
    refine ⟨rfl, rfl, by omega, by omega, by omega, by omega, ?_⟩
    rw [hcell0 1 1]
    simp
  · intro a b hab
    rw [hcell0 a b] at hab
    split at hab
    · next hh1 => omega
    · exact absurd hab one_ne_zero
  · intro a b hab
    rw [hcell0 a b] at hab
    split at hab
    · next hh1 => exact Or.inl ⟨by omega, by omega⟩
    · exact absurd hab one_ne_zero
  · intro a b hab
    rw [hcell0 a b] at hab
    split at hab
    · next hh1 =>
      obtain ⟨ha, hb⟩ := hh1
      subst ha
      subst hb
      exact Relation.ReflTransGen.refl
    · exact absurd hab one_ne_zero
  · have hJ : (Finset.range w ×ˢ Finset.range h).filter
        (fun p => (p.1 % 2 = 1 ∧ p.2 % 2 = 1) ∧
          getCell (setCell (initMaze w h) 1 1 0) p.1 p.2 = 0) = {(1, 1)} := by
      ext ⟨a, b⟩
      simp only [Finset.mem_filter, Finset.mem_product, Finset.mem_range,
        Finset.mem_singleton, Prod.mk.injEq]
      constructor
      · rintro ⟨⟨ha, hb⟩, hpar, hcl⟩
        rw [hcell0 a b] at hcl
        split at hcl
        · next hh1 => exact hh1
        · exact absurd hcl one_ne_zero
      · rintro ⟨ha, hb⟩
        subst ha
        subst hb
        refine ⟨⟨by omega, by omega⟩, ⟨rfl, rfl⟩, ?_⟩
        rw [hcell0 1 1]
        simp
    have hE : (Finset.range w ×ˢ Finset.range h).filter
        (fun p => (p.1 % 2 + p.2 % 2 = 1) ∧
          getCell (setCell (initMaze w h) 1 1 0) p.1 p.2 = 0) = ∅ := by
      ext ⟨a, b⟩
      simp only [Finset.mem_filter, Finset.not_mem_empty, iff_false, not_and]
      rintro hmem hpar
      rw [hcell0 a b]
      split
      · next hh1 => omega
      · exact one_ne_zero
    rw [junctionCount, edgeCount, hJ, hE]
    simp

/-- The picked palette entry is always one of the four palette colours. -/
theorem palette_pick_mem (i : ℕ) :
    wallPalette.getD (i % wallPalette.length) 1 ∈ wallPalette :=
  getD_mem (Nat.mod_lt _ (by decide))

/-- Pointwise behaviour of one colour-pass row: an Empty cell stays Empty, a
Wall cell becomes a palette colour. -/
theorem colorRow_cases (rand : ℕ → ℕ → ℕ) (y : ℕ) :
    ∀ (row : List ℕ) (x0 a : ℕ),
      (row.getD a 1 = 0 ∧ (colorRow rand y x0 row).getD a 1 = 0) ∨
      (row.getD a 1 ≠ 0 ∧ (colorRow rand y x0 row).getD a 1 ∈ wallPalette) := by
  intro row
  induction row with
  | nil =>
    intro x0 a
    right
    exact ⟨by simp [List.getD], by simp [colorRow, List.getD, wallPalette]⟩
  | cons v vs ih =>
    intro x0 a
    cases a with
    | zero =>
      by_cases hv : v = 0
      · left
        simp [colorRow, hv]
      · right
        refine ⟨by simpa using hv, ?_⟩
        simp only [colorRow, if_neg hv, List.getD_cons_zero]
        exact palette_pick_mem _
    | succ a' =>
      simp only [colorRow, List.getD_cons_succ]
      exact ih (x0 + 1) a'

/-- Pointwise behaviour of the whole colour pass. -/
theorem colorRows_cases (rand : ℕ → ℕ → ℕ) :
    ∀ (m : List (List ℕ)) (y0 x y : ℕ),
      ((m.getD y []).getD x 1 = 0 ∧
        ((colorRows rand y0 m).getD y []).getD x 1 = 0) ∨
      ((m.getD y []).getD x 1 ≠ 0 ∧
        ((colorRows rand y0 m).getD y []).getD x 1 ∈ wallPalette) := by
  intro m
  induction m with
  | nil =>
    intro y0 x y
    right
    exact ⟨by simp [List.getD], by simp [colorRows, List.getD, wallPalette]⟩
  | cons row rows ih =>
    intro y0 x y
    cases y with
    | zero =>
      simp only [colorRows, List.getD_cons_zero]
      exact colorRow_cases rand y0 row 0 x
    | succ y' =>
      simp only [colorRows, List.getD_cons_succ]
      exact ih (y0 + 1) x y'

/-- Pointwise behaviour of `colorize` in `getCell` form. -/
theorem getCell_colorize (rand : ℕ → ℕ → ℕ) (m : List (List ℕ)) (x y : ℕ) :
    (getCell m x y = 0 ∧ getCell (colorize rand m) x y = 0) ∨
    (getCell m x y ≠ 0 ∧ getCell (colorize rand m) x y ∈ wallPalette) :=
  colorRows_cases rand m 0 x y

theorem palette_ne_zero : ∀ v ∈ wallPalette, v ≠ 0 := by decide

/-- The grid invariant holds for every generated maze with `w, h ≥ 3`. -/
theorem generate_maze_inv (w h : ℕ) (rand : ℕ → ℕ) (hw : 3 ≤ w) (hh : 3 ≤ h) :
    GridInv w h (generate_maze w h rand) :=
  carve_inv w h rand (2 * w * h + 1) _ _ 0 (carve_base w h hw hh)

/-- C1: for every pair of odd dimensions `(w, h)` with `w, h ≥ 3` and every
random stream, the Empty cells of `generate_maze w h` form a spanning tree of
the junction lattice: every Empty cell is reachable from `(1, 1)` through
Empty cells, and the number of opened wall cells (junction-graph edges)
equals the number of Empty junction cells minus one. -/
theorem generate_maze_spanning_tree (w h : ℕ) (rand : ℕ → ℕ)
    (hwodd : w % 2 = 1) (hhodd : h % 2 = 1) (hw : 3 ≤ w) (hh : 3 ≤ h) :
    (∀ x y, getCell (generate_maze w h rand) x y = 0 →
      Reach (generate_maze w h rand) (1, 1) (x, y)) ∧
    junctionCount w h (generate_maze w h rand) =
      edgeCount w h (generate_maze w h rand) + 1 := by
  have g := generate_maze_inv w h rand hw hh
  exact ⟨g.reach, g.count⟩

/-- Witness for C1 at the concrete instance `w = h = 3`. -/
theorem generate_maze_spanning_tree_witness :
    (∀ x y, getCell (generate_maze 3 3 (fun _ => 0)) x y = 0 →
      Reach (generate_maze 3 3 (fun _ => 0)) (1, 1) (x, y)) ∧
    junctionCount 3 3 (generate_maze 3 3 (fun _ => 0)) =
      edgeCount 3 3 (generate_maze 3 3 (fun _ => 0)) + 1 :=
  generate_maze_spanning_tree 3 3 (fun _ => 0) (by decide) (by decide)
    (by decide) (by decide)

/-- C6: every border cell of a generated maze is Wall, both right after
generation and after the colour post-processing pass. -/
theorem generate_maze_border_wall (w h : ℕ) (rand : ℕ → ℕ)
    (rand2 : ℕ → ℕ → ℕ) (hwodd : w % 2 = 1) (hhodd : h % 2 = 1)
    (hw : 3 ≤ w) (hh : 3 ≤ h) (x y : ℕ) (hx : x < w) (hy : y < h)
    (hborder : x = 0 ∨ x = w - 1 ∨ y = 0 ∨ y = h - 1) :
    getCell (generate_maze w h rand) x y ≠ 0 ∧
    getCell (colorize rand2 (generate_maze w h rand)) x y ≠ 0 := by
  have g := generate_maze_inv w h rand hw hh
  have hwall : getCell (generate_maze w h rand) x y ≠ 0 := by
    intro h0
    have := g.interior x y h0
    omega
  refine ⟨hwall, ?_⟩
  rcases getCell_colorize rand2 (generate_maze w h rand) x y with ⟨h1, _⟩ | ⟨_, h2⟩
  · exact absurd h1 hwall
  · exact palette_ne_zero _ h2

/-- Witness for C6 at `w = h = 3`, cell `(0, 2)`. -/
theorem generate_maze_border_wall_witness :
    getCell (generate_maze 3 3 (fun _ => 0)) 0 2 ≠ 0 ∧
    getCell (colorize (fun _ _ => 0) (generate_maze 3 3 (fun _ => 0))) 0 2 ≠ 0 :=
  generate_maze_border_wall 3 3 (fun _ => 0) (fun _ _ => 0) (by decide)
    (by decide) (by decide) (by decide) 0 2 (by decide) (by decide)
    (Or.inl rfl)

/-- C9: the colour post-processing pass changes no cell's Empty/Wall
classification - a cell is Empty after the pass exactly when it was Empty
before it, and a Wall cell's value is replaced by a palette index. -/
theorem colorize_preserves_cells (rand : ℕ → ℕ → ℕ) (m : List (List ℕ))
    (x y : ℕ) :
    (getCell m x y = 0 ↔ getCell (colorize rand m) x y = 0) ∧
    (getCell m x y ≠ 0 → getCell (colorize rand m) x y ∈ wallPalette) := by
  rcases getCell_colorize rand m x y with ⟨h1, h2⟩ | ⟨h1, h2⟩
  · exact ⟨⟨fun _ => h2, fun _ => h1⟩, fun hne => absurd h1 hne⟩
  · refine ⟨⟨fun h0 => absurd h0 h1, fun h0 => absurd h0 (palette_ne_zero _ h2)⟩,
      fun _ => h2⟩

/-- Witness for C9 on a concrete grid and cell. -/
theorem colorize_preserves_cells_witness :
    (getCell [[1, 0], [0, 1]] 1 1 = 0 ↔
      getCell (colorize (fun _ _ => 2) [[1, 0], [0, 1]]) 1 1 = 0) ∧
    (getCell [[1, 0], [0, 1]] 1 1 ≠ 0 →
      getCell (colorize (fun _ _ => 2) [[1, 0], [0, 1]]) 1 1 ∈ wallPalette) :=
  colorize_preserves_cells (fun _ _ => 2) [[1, 0], [0, 1]] 1 1

/-- One movement tick cannot move the camera's integer cell onto a Wall:
each axis update is guarded by exactly the invariant it must re-establish. -/
theorem moveStep_preserves (m : List (List ℕ)) (sgn : ℚ) (cam : Camera)
    (h : mazeAt m (pyInt cam.posY) (pyInt cam.posX) = 0) :
    mazeAt m (pyInt (moveStep m sgn cam).posY)
      (pyInt (moveStep m sgn cam).posX) = 0 := by
  unfold moveStep
  simp only
  by_cases h1 : mazeAt m (pyInt cam.posY)
      (pyInt (cam.posX + sgn * cam.dirX * move_speed)) = 0
  · rw [if_pos h1]
    by_cases h2 : mazeAt m (pyInt (cam.posY + sgn * cam.dirY * move_speed))
        (pyInt (cam.posX + sgn * cam.dirX * move_speed)) = 0
    · rw [if_pos h2]
      exact h2
    · rw [if_neg h2]
      exact h1
  · rw [if_neg h1]
    by_cases h2 : mazeAt m (pyInt (cam.posY + sgn * cam.dirY * move_speed))
        (pyInt cam.posX) = 0
    · rw [if_pos h2]
      exact h2
    · rw [if_neg h2]
      exact h

/-- C2: for every grid, every starting camera whose integer cell is Empty and
every sequence of movement/rotation commands, the cell under the camera's
integer coordinates remains Empty after every update. -/
theorem camera_cell_stays_empty (m : List (List ℕ)) (cmds : List Cmd)
    (cam : Camera) (h : mazeAt m (pyInt cam.posY) (pyInt cam.posX) = 0) :
    mazeAt m (pyInt (applyCmds m cmds cam).posY)
      (pyInt (applyCmds m cmds cam).posX) = 0 := by
  induction cmds generalizing cam with
  | nil => exact h
  | cons cmd rest ih =>
    show mazeAt m (pyInt (applyCmds m rest (applyCmd m cmd cam)).posY)
      (pyInt (applyCmds m rest (applyCmd m cmd cam)).posX) = 0
    apply ih
    cases cmd with
    | forward => exact moveStep_preserves m 1 cam h
    | backward => exact moveStep_preserves m (-1) cam h
    | rot c s => exact h

/-- Witness for C2: a one-cell grid, a camera inside it and one forward
command. -/
theorem camera_cell_stays_empty_witness :
    mazeAt [[0]]
      (pyInt (applyCmds [[0]] [Cmd.forward]
        ⟨1/2, 1/2, 1, 0, 0, 33/50⟩).posY)
      (pyInt (applyCmds [[0]] [Cmd.forward]
        ⟨1/2, 1/2, 1, 0, 0, 33/50⟩).posX) = 0 :=
  camera_cell_stays_empty [[0]] [Cmd.forward] ⟨1/2, 1/2, 1, 0, 0, 33/50⟩
    (by norm_num [mazeAt, pyGet, pyInt, List.getD])

/-- One rotation tick preserves the squared magnitudes of `dir` and `plane`
and their dot product, whenever the matrix entries lie on the unit circle. -/
theorem rotStep_invariants (c s : ℚ) (hcs : c ^ 2 + s ^ 2 = 1) (cam : Camera) :
    (rotStep c s cam).dirX ^ 2 + (rotStep c s cam).dirY ^ 2 =
        cam.dirX ^ 2 + cam.dirY ^ 2 ∧
    (rotStep c s cam).planeX ^ 2 + (rotStep c s cam).planeY ^ 2 =
        cam.planeX ^ 2 + cam.planeY ^ 2 ∧
    (rotStep c s cam).dirX * (rotStep c s cam).planeX +
        (rotStep c s cam).dirY * (rotStep c s cam).planeY =
      cam.dirX * cam.planeX + cam.dirY * cam.planeY := by
  unfold rotStep
  refine ⟨?_, ?_, ?_⟩
  · show (cam.dirX * c - cam.dirY * s) ^ 2 + (cam.dirX * s + cam.dirY * c) ^ 2 =
      cam.dirX ^ 2 + cam.dirY ^ 2
    linear_combination (cam.dirX ^ 2 + cam.dirY ^ 2) * hcs
  · show (cam.planeX * c - cam.planeY * s) ^ 2 +
      (cam.planeX * s + cam.planeY * c) ^ 2 =
      cam.planeX ^ 2 + cam.planeY ^ 2
    linear_combination (cam.planeX ^ 2 + cam.planeY ^ 2) * hcs
  · show (cam.dirX * c - cam.dirY * s) * (cam.planeX * c - cam.planeY * s) +
      (cam.dirX * s + cam.dirY * c) * (cam.planeX * s + cam.planeY * c) =
      cam.dirX * cam.planeX + cam.dirY * cam.planeY
    linear_combination (cam.dirX * cam.planeX + cam.dirY * cam.planeY) * hcs

/-- C5: any sequence of rotation steps whose matrix entries lie on the unit
circle preserves the squared magnitude of `dir`, the squared magnitude of
`plane` and their dot product - hence the magnitudes and the angle between
the two vectors. -/
theorem rotation_sequence_preserves (cam : Camera) (rots : List (ℚ × ℚ))
    (h : ∀ p ∈ rots, p.1 ^ 2 + p.2 ^ 2 = 1) :
    ((rots.foldl (fun c p => rotStep p.1 p.2 c) cam).dirX ^ 2 +
        (rots.foldl (fun c p => rotStep p.1 p.2 c) cam).dirY ^ 2 =
      cam.dirX ^ 2 + cam.dirY ^ 2) ∧
    ((rots.foldl (fun c p => rotStep p.1 p.2 c) cam).planeX ^ 2 +
        (rots.foldl (fun c p => rotStep p.1 p.2 c) cam).planeY ^ 2 =
      cam.planeX ^ 2 + cam.planeY ^ 2) ∧
    ((rots.foldl (fun c p => rotStep p.1 p.2 c) cam).dirX *
          (rots.foldl (fun c p => rotStep p.1 p.2 c) cam).planeX +
        (rots.foldl (fun c p => rotStep p.1 p.2 c) cam).dirY *
          (rots.foldl (fun c p => rotStep p.1 p.2 c) cam).planeY =
      cam.dirX * cam.planeX + cam.dirY * cam.planeY) := by
  induction rots generalizing cam with
  | nil => exact ⟨rfl, rfl, rfl⟩
  | cons p rest ih =>
    simp only [List.foldl_cons]
    have hp := h p (List.mem_cons_self _ _)
    have hrest : ∀ q ∈ rest, q.1 ^ 2 + q.2 ^ 2 = 1 :=
      fun q hq => h q (List.mem_cons_of_mem _ hq)
    obtain ⟨s1, s2, s3⟩ := rotStep_invariants p.1 p.2 hp cam
    obtain ⟨i1, i2, i3⟩ := ih (rotStep p.1 p.2 cam) hrest
    exact ⟨i1.trans s1, i2.trans s2, i3.trans s3⟩

/-- Witness for C5: one left rotation with the unit-circle pair
`(3/5, 4/5)` applied to the initial camera. -/
theorem rotation_sequence_preserves_witness :
    (([((3 : ℚ)/5, (4 : ℚ)/5)].foldl (fun c p => rotStep p.1 p.2 c)
          ⟨3/2, 3/2, 1, 0, 0, 33/50⟩).dirX ^ 2 +
        ([((3 : ℚ)/5, (4 : ℚ)/5)].foldl (fun c p => rotStep p.1 p.2 c)
          ⟨3/2, 3/2, 1, 0, 0, 33/50⟩).dirY ^ 2 =
      (Camera.mk (3/2) (3/2) 1 0 0 (33/50)).dirX ^ 2 +
        (Camera.mk (3/2) (3/2) 1 0 0 (33/50)).dirY ^ 2) ∧
    (([((3 : ℚ)/5, (4 : ℚ)/5)].foldl (fun c p => rotStep p.1 p.2 c)
          ⟨3/2, 3/2, 1, 0, 0, 33/50⟩).planeX ^ 2 +
        ([((3 : ℚ)/5, (4 : ℚ)/5)].foldl (fun c p => rotStep p.1 p.2 c)
          ⟨3/2, 3/2, 1, 0, 0, 33/50⟩).planeY ^ 2 =
      (Camera.mk (3/2) (3/2) 1 0 0 (33/50)).planeX ^ 2 +
        (Camera.mk (3/2) (3/2) 1 0 0 (33/50)).planeY ^ 2) ∧
    (([((3 : ℚ)/5, (4 : ℚ)/5)].foldl (fun c p => rotStep p.1 p.2 c)
          ⟨3/2, 3/2, 1, 0, 0, 33/50⟩).dirX *
          ([((3 : ℚ)/5, (4 : ℚ)/5)].foldl (fun c p => rotStep p.1 p.2 c)
            ⟨3/2, 3/2, 1, 0, 0, 33/50⟩).planeX +
        ([((3 : ℚ)/5, (4 : ℚ)/5)].foldl (fun c p => rotStep p.1 p.2 c)
          ⟨3/2, 3/2, 1, 0, 0, 33/50⟩).dirY *
          ([((3 : ℚ)/5, (4 : ℚ)/5)].foldl (fun c p => rotStep p.1 p.2 c)
            ⟨3/2, 3/2, 1, 0, 0, 33/50⟩).planeY =
      (Camera.mk (3/2) (3/2) 1 0 0 (33/50)).dirX *
          (Camera.mk (3/2) (3/2) 1 0 0 (33/50)).planeX +
        (Camera.mk (3/2) (3/2) 1 0 0 (33/50)).dirY *
          (Camera.mk (3/2) (3/2) 1 0 0 (33/50)).planeY) :=
  rotation_sequence_preserves ⟨3/2, 3/2, 1, 0, 0, 33/50⟩
    [((3 : ℚ)/5, (4 : ℚ)/5)]
    (by
      intro p hp
      simp only [List.mem_singleton] at hp
      subst hp
      norm_num)

/-- C4 counterexample: the even, invalid dimensions `4 × 4` are not rejected -
`generate_maze` returns a grid instead of failing. -/
theorem generate_maze_accepts_even_dims :
    (generate_maze? 4 4 (fun _ => 0)).isSome = true := by
  rw [generate_maze?, if_pos ⟨by norm_num, by norm_num⟩]
  rfl

/-- C4 amended: `generate_maze` performs no dimension validation; the call
fails (with `IndexError`) exactly when a dimension is smaller than 2, and
for every other width and height - even or odd, valid or not - it returns a
grid. -/
theorem generate_maze_failure_iff (w h : ℕ) (rand : ℕ → ℕ) :
    (generate_maze? w h rand).isSome = true ↔ 2 ≤ w ∧ 2 ≤ h := by
  rw [generate_maze?]
  split
  · next hc => simpa using hc
  · next hc => simpa using hc

theorem oobMap_false_iff (w h : ℕ) (mx my : ℤ) :
    oobMap w h mx my = false ↔
      0 ≤ mx ∧ mx < (w : ℤ) ∧ 0 ≤ my ∧ my < (h : ℤ) := by
  simp only [oobMap, Bool.or_eq_false_iff, decide_eq_false_iff_not, not_lt, not_le]
  omega

theorem ddaMeasureX_step (w : ℕ) (stepX mx : ℤ) (hsx : stepX = 1 ∨ stepX = -1)
    (hin1 : 0 ≤ mx + stepX) (hin2 : mx + stepX < (w : ℤ)) :
    ddaMeasureX w stepX (mx + stepX) + 1 = ddaMeasureX w stepX mx := by
  rcases hsx with hs | hs <;> subst hs
  · unfold ddaMeasureX
    rw [if_pos rfl, if_pos rfl]
    omega
  · unfold ddaMeasureX
    rw [if_neg (show ¬(-1 : ℤ) = 1 by decide), if_neg (show ¬(-1 : ℤ) = 1 by decide)]
    omega

theorem ddaMeasureY_step (h : ℕ) (stepY my : ℤ) (hsy : stepY = 1 ∨ stepY = -1)
    (hin1 : 0 ≤ my + stepY) (hin2 : my + stepY < (h : ℤ)) :
    ddaMeasureY h stepY (my + stepY) + 1 = ddaMeasureY h stepY my := by
  rcases hsy with hs | hs <;> subst hs
  · unfold ddaMeasureY
    rw [if_pos rfl, if_pos rfl]
    omega
  · unfold ddaMeasureY
    rw [if_neg (show ¬(-1 : ℤ) = 1 by decide), if_neg (show ¬(-1 : ℤ) = 1 by decide)]
    omega

/-- Every in-bounds DDA advance strictly decreases the fuel measure. -/
theorem ddaMeasure_decreases (w h : ℕ) (stepX stepY : ℤ) (dX dY : ℚ)
    (hsx : stepX = 1 ∨ stepX = -1) (hsy : stepY = 1 ∨ stepY = -1) (s : DdaState)
    (hin : oobMap w h (ddaStep stepX stepY dX dY s).mapX
      (ddaStep stepX stepY dX dY s).mapY = false) :
    ddaMeasure w h stepX stepY (ddaStep stepX stepY dX dY s).mapX
        (ddaStep stepX stepY dX dY s).mapY <
      ddaMeasure w h stepX stepY s.mapX s.mapY := by
  rw [oobMap_false_iff] at hin
  unfold ddaStep at hin ⊢
  by_cases hlt : s.sideDistX < s.sideDistY
  · rw [if_pos hlt] at hin ⊢
    simp only at hin ⊢
    have := ddaMeasureX_step w stepX s.mapX hsx hin.1 hin.2.1
    unfold ddaMeasure
    omega
  · rw [if_neg hlt] at hin ⊢
    simp only at hin ⊢
    have := ddaMeasureY_step h stepY s.mapY hsy hin.2.2.1 hin.2.2.2
    unfold ddaMeasure
    omega

/-- The DDA loop always terminates within the measure bound, and stops
either out of bounds or at a non-Empty cell. -/
theorem ddaRun_total (w h : ℕ) (m : List (List ℕ)) (stepX stepY : ℤ)
    (dX dY : ℚ) (hsx : stepX = 1 ∨ stepX = -1)
    (hsy : stepY = 1 ∨ stepY = -1) :
    ∀ (fuel : ℕ) (s : DdaState),
      ddaMeasure w h stepX stepY s.mapX s.mapY < fuel →
      ∃ r, ddaRun w h m stepX stepY dX dY fuel s = some r ∧
        (oobMap w h r.mapX r.mapY = true ∨
          (oobMap w h r.mapX r.mapY = false ∧
            getCell m r.mapX.toNat r.mapY.toNat ≠ 0)) := by
  intro fuel
  induction fuel with
  | zero =>
    intro s hs
    exact absurd hs (by omega)
  | succ n ih =>
    intro s hs
    have hrun : ddaRun w h m stepX stepY dX dY (n + 1) s =
        if oobMap w h (ddaStep stepX stepY dX dY s).mapX
            (ddaStep stepX stepY dX dY s).mapY then
          some (ddaStep stepX stepY dX dY s)
        else if getCell m (ddaStep stepX stepY dX dY s).mapX.toNat
            (ddaStep stepX stepY dX dY s).mapY.toNat ≠ 0 then
          some (ddaStep stepX stepY dX dY s)
        else ddaRun w h m stepX stepY dX dY n (ddaStep stepX stepY dX dY s) :=
      rfl
    rw [hrun]
    by_cases hoob : oobMap w h (ddaStep stepX stepY dX dY s).mapX
        (ddaStep stepX stepY dX dY s).mapY = true
    · rw [if_pos hoob]
      exact ⟨_, rfl, Or.inl hoob⟩
    · have hoob' : oobMap w h (ddaStep stepX stepY dX dY s).mapX
          (ddaStep stepX stepY dX dY s).mapY = false := by
        revert hoob
        cases oobMap w h (ddaStep stepX stepY dX dY s).mapX
          (ddaStep stepX stepY dX dY s).mapY <;> simp
      rw [if_neg hoob]
      by_cases hhit : getCell m (ddaStep stepX stepY dX dY s).mapX.toNat
          (ddaStep stepX stepY dX dY s).mapY.toNat ≠ 0
      · rw [if_pos hhit]
        exact ⟨_, rfl, Or.inr ⟨hoob', hhit⟩⟩
      · rw [if_neg hhit]
        apply ih
        have hdec := ddaMeasure_decreases w h stepX stepY dX dY hsx hsy s hoob'
        omega

/-- A `some` result of the DDA loop that is in bounds sits on a non-Empty
cell. -/
theorem ddaRun_hit_nonzero (w h : ℕ) (m : List (List ℕ)) (stepX stepY : ℤ)
    (dX dY : ℚ) :
    ∀ (fuel : ℕ) (s : DdaState) (r : DdaState),
      ddaRun w h m stepX stepY dX dY fuel s = some r →
      oobMap w h r.mapX r.mapY = false →
      getCell m r.mapX.toNat r.mapY.toNat ≠ 0 := by
  intro fuel
  induction fuel with
  | zero =>
    intro s r hr
    exact absurd hr (by rw [ddaRun]; exact Option.noConfusion)
  | succ n ih =>
    intro s r hr hoob
    have hrun : ddaRun w h m stepX stepY dX dY (n + 1) s =
        if oobMap w h (ddaStep stepX stepY dX dY s).mapX
            (ddaStep stepX stepY dX dY s).mapY then
          some (ddaStep stepX stepY dX dY s)
        else if getCell m (ddaStep stepX stepY dX dY s).mapX.toNat
            (ddaStep stepX stepY dX dY s).mapY.toNat ≠ 0 then
          some (ddaStep stepX stepY dX dY s)
        else ddaRun w h m stepX stepY dX dY n (ddaStep stepX stepY dX dY s) :=
      rfl
    rw [hrun] at hr
    split at hr
    · next hc =>
      rw [Option.some.injEq] at hr
      subst hr
      rw [hc] at hoob
      exact absurd hoob (by simp)
    · split at hr
      · next hc =>
        rw [Option.some.injEq] at hr
        subst hr
        exact hc
      · exact ih _ r hr hoob

/-- The sign produced by `stepAndSide` is always `1` or `-1`. -/
theorem stepAndSide_sign (r pos : ℚ) (map : ℤ) (delta : ℚ) :
    (stepAndSide r pos map delta).1 = 1 ∨ (stepAndSide r pos map delta).1 = -1 := by
  unfold stepAndSide
  split
  · exact Or.inr rfl
  · exact Or.inl rfl

theorem ddaMeasureX_le (w : ℕ) (stepX mx : ℤ) (hsx : stepX = 1 ∨ stepX = -1)
    (h0 : 0 ≤ mx) (hw : mx < (w : ℤ)) : ddaMeasureX w stepX mx ≤ w := by
  rcases hsx with hs | hs <;> subst hs
  · unfold ddaMeasureX
    rw [if_pos rfl]
    omega
  · unfold ddaMeasureX
    rw [if_neg (show ¬(-1 : ℤ) = 1 by decide)]
    omega

theorem ddaMeasureY_le (h : ℕ) (stepY my : ℤ) (hsy : stepY = 1 ∨ stepY = -1)
    (h0 : 0 ≤ my) (hh : my < (h : ℤ)) : ddaMeasureY h stepY my ≤ h := by
  rcases hsy with hs | hs <;> subst hs
  · unfold ddaMeasureY
    rw [if_pos rfl]
    omega
  · unfold ddaMeasureY
    rw [if_neg (show ¬(-1 : ℤ) = 1 by decide)]
    omega

/-- If the x side distance stays at least the y side distance throughout (it
can only be overtaken by at most `ddaMeasureY` increments of `dY`), the DDA
loop never advances the x axis: it ends with `side = 1`, unchanged `mapX`,
and a y-terminated hit or miss. -/
theorem ddaRun_all_y (w h : ℕ) (m : List (List ℕ)) (stepX stepY : ℤ)
    (dX dY : ℚ) (hsy : stepY = 1 ∨ stepY = -1) (hdY : 0 ≤ dY) :
    ∀ (fuel : ℕ) (s : DdaState),
      ddaMeasureY h stepY s.mapY < fuel →
      s.sideDistY + (ddaMeasureY h stepY s.mapY : ℚ) * dY ≤ s.sideDistX →
      ∃ r, ddaRun w h m stepX stepY dX dY fuel s = some r ∧
        r.side = some 1 ∧ r.mapX = s.mapX ∧
        (oobMap w h r.mapX r.mapY = true ∨
          getCell m r.mapX.toNat r.mapY.toNat ≠ 0) := by
  intro fuel
  induction fuel with
  | zero =>
    intro s hfuel _
    exact absurd hfuel (by omega)
  | succ n ih =>
    intro s hfuel hbound
    have hk0 : (0 : ℚ) ≤ (ddaMeasureY h stepY s.mapY : ℚ) * dY :=
      mul_nonneg (by positivity) hdY
    have hnlt : ¬ (s.sideDistX < s.sideDistY) := by
      push_neg
      linarith
    have hstep : ddaStep stepX stepY dX dY s =
        { s with
          sideDistY := s.sideDistY + dY
          mapY := s.mapY + stepY
          side := some 1 } := by
      unfold ddaStep
      rw [if_neg hnlt]
    have hrun : ddaRun w h m stepX stepY dX dY (n + 1) s =
        if oobMap w h (ddaStep stepX stepY dX dY s).mapX
            (ddaStep stepX stepY dX dY s).mapY then
          some (ddaStep stepX stepY dX dY s)
        else if getCell m (ddaStep stepX stepY dX dY s).mapX.toNat
            (ddaStep stepX stepY dX dY s).mapY.toNat ≠ 0 then
          some (ddaStep stepX stepY dX dY s)
        else ddaRun w h m stepX stepY dX dY n (ddaStep stepX stepY dX dY s) :=
      rfl
    rw [hrun, hstep]
    by_cases hoob : oobMap w h s.mapX (s.mapY + stepY) = true
    · rw [if_pos hoob]
      exact ⟨_, rfl, rfl, rfl, Or.inl hoob⟩
    · have hoob' : oobMap w h s.mapX (s.mapY + stepY) = false := by
        revert hoob
        cases oobMap w h s.mapX (s.mapY + stepY) <;> simp
      rw [if_neg hoob]
      by_cases hhit : getCell m s.mapX.toNat (s.mapY + stepY).toNat ≠ 0
      · rw [if_pos hhit]
        exact ⟨_, rfl, rfl, rfl, Or.inr hhit⟩
      · rw [if_neg hhit]
        rw [oobMap_false_iff] at hoob'
        have hmeq := ddaMeasureY_step h stepY s.mapY hsy hoob'.2.2.1 hoob'.2.2.2
        have hcast : (ddaMeasureY h stepY (s.mapY + stepY) : ℚ) + 1 =
            (ddaMeasureY h stepY s.mapY : ℚ) := by
          exact_mod_cast congrArg (Nat.cast : ℕ → ℚ) hmeq
        obtain ⟨r, hr, hside, hmapx, hclass⟩ := ih
          { s with
            sideDistY := s.sideDistY + dY
            mapY := s.mapY + stepY
            side := some 1 }
          (by simp only; omega)
          (by simp only; nlinarith [hbound, hcast])
        exact ⟨r, hr, hside, hmapx, hclass⟩

/-- Mirror of `ddaRun_all_y`: if the x side distance stays strictly below
the y side distance throughout, the loop never advances the y axis. -/
theorem ddaRun_all_x (w h : ℕ) (m : List (List ℕ)) (stepX stepY : ℤ)
    (dX dY : ℚ) (hsx : stepX = 1 ∨ stepX = -1) (hdX : 0 ≤ dX) :
    ∀ (fuel : ℕ) (s : DdaState),
      ddaMeasureX w stepX s.mapX < fuel →
      s.sideDistX + (ddaMeasureX w stepX s.mapX : ℚ) * dX < s.sideDistY →
      ∃ r, ddaRun w h m stepX stepY dX dY fuel s = some r ∧
        r.side = some 0 ∧ r.mapY = s.mapY ∧
        (oobMap w h r.mapX r.mapY = true ∨
          getCell m r.mapX.toNat r.mapY.toNat ≠ 0) := by
  intro fuel
  induction fuel with
  | zero =>
    intro s hfuel _
    exact absurd hfuel (by omega)
  | succ n ih =>
    intro s hfuel hbound
    have hk0 : (0 : ℚ) ≤ (ddaMeasureX w stepX s.mapX : ℚ) * dX :=
      mul_nonneg (by positivity) hdX
    have hlt : s.sideDistX < s.sideDistY := by linarith
    have hstep : ddaStep stepX stepY dX dY s =
        { s with
          sideDistX := s.sideDistX + dX
          mapX := s.mapX + stepX
          side := some 0 } := by
      unfold ddaStep
      rw [if_pos hlt]
    have hrun : ddaRun w h m stepX stepY dX dY (n + 1) s =
        if oobMap w h (ddaStep stepX stepY dX dY s).mapX
            (ddaStep stepX stepY dX dY s).mapY then
          some (ddaStep stepX stepY dX dY s)
        else if getCell m (ddaStep stepX stepY dX dY s).mapX.toNat
            (ddaStep stepX stepY dX dY s).mapY.toNat ≠ 0 then
          some (ddaStep stepX stepY dX dY s)
        else ddaRun w h m stepX stepY dX dY n (ddaStep stepX stepY dX dY s) :=
      rfl
    rw [hrun, hstep]
    by_cases hoob : oobMap w h (s.mapX + stepX) s.mapY = true
    · rw [if_pos hoob]
      exact ⟨_, rfl, rfl, rfl, Or.inl hoob⟩
    · have hoob' : oobMap w h (s.mapX + stepX) s.mapY = false := by
        revert hoob
        cases oobMap w h (s.mapX + stepX) s.mapY <;> simp
      rw [if_neg hoob]
      by_cases hhit : getCell m (s.mapX + stepX).toNat s.mapY.toNat ≠ 0
      · rw [if_pos hhit]
        exact ⟨_, rfl, rfl, rfl, Or.inr hhit⟩
      · rw [if_neg hhit]
        rw [oobMap_false_iff] at hoob'
        have hmeq := ddaMeasureX_step w stepX s.mapX hsx hoob'.1 hoob'.2.1
        have hcast : (ddaMeasureX w stepX (s.mapX + stepX) : ℚ) + 1 =
            (ddaMeasureX w stepX s.mapX : ℚ) := by
          exact_mod_cast congrArg (Nat.cast : ℕ → ℚ) hmeq
        obtain ⟨r, hr, hside, hmapy, hclass⟩ := ih
          { s with
            sideDistX := s.sideDistX + dX
            mapX := s.mapX + stepX
            side := some 0 }
          (by simp only; omega)
          (by simp only; nlinarith [hbound, hcast])
        exact ⟨r, hr, hside, hmapy, hclass⟩

/-- C3: for every camera position inside the grid and every ray with at
least one nonzero component, the DDA loop of `castRay` terminates (the fuel
`w + h + 2` is never exhausted), ending either at a non-Empty cell or at the
first cell outside the grid bounds.  (The nonzero-component hypothesis is
not even needed: each iteration moves the map cell one step along some axis
toward the boundary.) -/
theorem castRay_terminates (w h : ℕ) (m : List (List ℕ))
    (posX posY rayDirX rayDirY : ℚ)
    (hdir : rayDirX ≠ 0 ∨ rayDirY ≠ 0)
    (hpx0 : 0 ≤ pyInt posX) (hpxw : pyInt posX < (w : ℤ))
    (hpy0 : 0 ≤ pyInt posY) (hpyh : pyInt posY < (h : ℤ)) :
    ∃ r, castRay w h m posX posY rayDirX rayDirY = some r ∧
      (oobMap w h r.mapX r.mapY = true ∨
        (oobMap w h r.mapX r.mapY = false ∧
          getCell m r.mapX.toNat r.mapY.toNat ≠ 0)) := by
  have hsx := stepAndSide_sign rayDirX posX (pyInt posX) (deltaDist rayDirX)
  have hsy := stepAndSide_sign rayDirY posY (pyInt posY) (deltaDist rayDirY)
  have hbx := ddaMeasureX_le w _ (pyInt posX) hsx hpx0 hpxw
  have hby := ddaMeasureY_le h _ (pyInt posY) hsy hpy0 hpyh
  show ∃ r, ddaRun w h m
      (stepAndSide rayDirX posX (pyInt posX) (deltaDist rayDirX)).1
      (stepAndSide rayDirY posY (pyInt posY) (deltaDist rayDirY)).1
      (deltaDist rayDirX) (deltaDist rayDirY) (w + h + 2)
      ⟨pyInt posX, pyInt posY,
        (stepAndSide rayDirX posX (pyInt posX) (deltaDist rayDirX)).2,
        (stepAndSide rayDirY posY (pyInt posY) (deltaDist rayDirY)).2,
        none⟩ = some r ∧
      (oobMap w h r.mapX r.mapY = true ∨
        (oobMap w h r.mapX r.mapY = false ∧
          getCell m r.mapX.toNat r.mapY.toNat ≠ 0))
  apply ddaRun_total w h m _ _ _ _ hsx hsy (w + h + 2)
  show ddaMeasureX w _ (pyInt posX) + ddaMeasureY h _ (pyInt posY) < w + h + 2
  omega

/-- Witness for C3: a ray fired east from the centre of the one-junction
3 times 3 maze terminates. -/
theorem castRay_terminates_witness :
    ∃ r, castRay 3 3 [[1, 1, 1], [1, 0, 1], [1, 1, 1]] (3/2) (3/2) 1 0 =
        some r ∧
      (oobMap 3 3 r.mapX r.mapY = true ∨
        (oobMap 3 3 r.mapX r.mapY = false ∧
          getCell [[1, 1, 1], [1, 0, 1], [1, 1, 1]]
            r.mapX.toNat r.mapY.toNat ≠ 0)) :=
  castRay_terminates 3 3 [[1, 1, 1], [1, 0, 1], [1, 1, 1]] (3/2) (3/2) 1 0
    (Or.inl (by norm_num)) (by norm_num [pyInt]) (by norm_num [pyInt])
    (by norm_num [pyInt]) (by norm_num [pyInt])

/-- C7 amended: an out-of-bounds miss selects the fixed white fallback
`(255, 255, 255)` as the base colour, but - like every colour - it is then
darkened by the `0.8` y-side shading, so the drawn colour is
`(204, 204, 204)` when the final step was on the y side and white
otherwise. -/
theorem oob_miss_drawn_color (w h : ℕ) (m : List (List ℕ)) (r : DdaState)
    (hoob : oobMap w h r.mapX r.mapY = true) :
    columnColor w h m r =
      if r.side = some 1 then (204, 204, 204) else (255, 255, 255) := by
  unfold columnColor
  simp only [hoob, if_true]
  split
  · norm_num [pyShade]
  · rfl

/-- C7 counterexample: a ray fired straight down an all-Empty 3 times 3 grid
leaves the bounds on a y-side step; the recorded miss is drawn
`(204, 204, 204)` - the shaded white - not the fixed white
`(255, 255, 255)`. -/
theorem oob_miss_not_white :
    castRay 3 3 [[0, 0, 0], [0, 0, 0], [0, 0, 0]] (3/2) (3/2) 0 1 =
        some ⟨1, 3, 5 * 10 ^ 29, 5/2, some 1⟩ ∧
    oobMap 3 3 (1 : ℤ) 3 = true ∧
    columnColor 3 3 [[0, 0, 0], [0, 0, 0], [0, 0, 0]]
        ⟨1, 3, 5 * 10 ^ 29, 5/2, some 1⟩ = (204, 204, 204) ∧
    columnColor 3 3 [[0, 0, 0], [0, 0, 0], [0, 0, 0]]
        ⟨1, 3, 5 * 10 ^ 29, 5/2, some 1⟩ ≠ (255, 255, 255) := by
  refine ⟨?_, by decide, ?_, ?_⟩
  · norm_num [castRay, ddaRun, ddaStep, stepAndSide, deltaDist, pyInt, oobMap,
      getCell, List.getD, Int.toNat, List.getElem?_cons_zero,
      List.getElem?_cons_succ, Option.getD]
  · norm_num [columnColor, oobMap, pyShade]
  · norm_num [columnColor, oobMap, pyShade]

/-- Witness for the amended C7 at the concrete out-of-bounds miss above. -/
theorem oob_miss_drawn_color_witness :
    columnColor 3 3 [[0, 0, 0], [0, 0, 0], [0, 0, 0]]
        ⟨1, 3, 5 * 10 ^ 29, 5/2, some 1⟩ =
      if (⟨1, 3, 5 * 10 ^ 29, 5/2, some 1⟩ : DdaState).side = some 1 then
        (204, 204, 204) else (255, 255, 255) :=
  oob_miss_drawn_color 3 3 [[0, 0, 0], [0, 0, 0], [0, 0, 0]]
    ⟨1, 3, 5 * 10 ^ 29, 5/2, some 1⟩ (by decide)

/-- The per-axis step length is never a division by zero and is always
nonnegative. -/
theorem deltaDist_nonneg (r : ℚ) : 0 ≤ deltaDist r := by
  unfold deltaDist
  split
  · positivity
  · norm_num

/-- C8 amended: for a ray with a zero direction component, the zero axis's
step length is the sentinel `1e30` and its step sign defaults to `+1`; and
*provided* the zero axis's huge initial side distance is not overtaken by
the other axis's accumulating side distance before the traversal ends (the
stated side-distance bound; it can fail only for camera positions within
about `10 ^ -29` of a cell boundary or a tiny nonzero component), the zero
axis is never chosen, the hit is recorded on the nonzero axis, and the
perpendicular-distance division is performed on the nonzero axis's
component, never dividing by zero. -/
theorem zero_component_ray (w h : ℕ) (m : List (List ℕ))
    (posX posY rayDirX rayDirY : ℚ)
    (hpx0 : 0 ≤ pyInt posX) (hpxw : pyInt posX < (w : ℤ))
    (hpy0 : 0 ≤ pyInt posY) (hpyh : pyInt posY < (h : ℤ)) :
    (rayDirX = 0 → deltaDist rayDirX = 10 ^ 30 ∧
      (stepAndSide rayDirX posX (pyInt posX) (deltaDist rayDirX)).1 = 1) ∧
    (rayDirY = 0 → deltaDist rayDirY = 10 ^ 30 ∧
      (stepAndSide rayDirY posY (pyInt posY) (deltaDist rayDirY)).1 = 1) ∧
    (rayDirX = 0 → rayDirY ≠ 0 →
      (stepAndSide rayDirY posY (pyInt posY) (deltaDist rayDirY)).2 +
          (ddaMeasureY h
            (stepAndSide rayDirY posY (pyInt posY) (deltaDist rayDirY)).1
            (pyInt posY) : ℚ) * deltaDist rayDirY ≤
        (stepAndSide rayDirX posX (pyInt posX) (deltaDist rayDirX)).2 →
      ∃ r, castRay w h m posX posY rayDirX rayDirY = some r ∧
        r.side = some 1 ∧ r.mapX = pyInt posX ∧
        perpDist posX posY rayDirX rayDirY
            (stepAndSide rayDirX posX (pyInt posX) (deltaDist rayDirX)).1
            (stepAndSide rayDirY posY (pyInt posY) (deltaDist rayDirY)).1 r =
          some (((r.mapY : ℚ) - posY +
            (1 - ((stepAndSide rayDirY posY (pyInt posY)
              (deltaDist rayDirY)).1 : ℚ)) / 2) / rayDirY)) ∧
    (rayDirY = 0 → rayDirX ≠ 0 →
      (stepAndSide rayDirX posX (pyInt posX) (deltaDist rayDirX)).2 +
          (ddaMeasureX w
            (stepAndSide rayDirX posX (pyInt posX) (deltaDist rayDirX)).1
            (pyInt posX) : ℚ) * deltaDist rayDirX <
        (stepAndSide rayDirY posY (pyInt posY) (deltaDist rayDirY)).2 →
      ∃ r, castRay w h m posX posY rayDirX rayDirY = some r ∧
        r.side = some 0 ∧ r.mapY = pyInt posY ∧
        perpDist posX posY rayDirX rayDirY
            (stepAndSide rayDirX posX (pyInt posX) (deltaDist rayDirX)).1
            (stepAndSide rayDirY posY (pyInt posY) (deltaDist rayDirY)).1 r =
          some (((r.mapX : ℚ) - posX +
            (1 - ((stepAndSide rayDirX posX (pyInt posX)
              (deltaDist rayDirX)).1 : ℚ)) / 2) / rayDirX)) := by
  refine ⟨?_, ?_, ?_, ?_⟩
  · intro h0
    subst h0
    constructor
    · unfold deltaDist
      norm_num
    · unfold stepAndSide
      norm_num
  · intro h0
    subst h0
    constructor
    · unfold deltaDist
      norm_num
    · unfold stepAndSide
      norm_num
  · intro hx0 hy0 hbound
    have hsy := stepAndSide_sign rayDirY posY (pyInt posY) (deltaDist rayDirY)
    have hdY := deltaDist_nonneg rayDirY
    have hby := ddaMeasureY_le h _ (pyInt posY) hsy hpy0 hpyh
    obtain ⟨r, hr, hside, hmapx, _⟩ :=
      ddaRun_all_y w h m
        (stepAndSide rayDirX posX (pyInt posX) (deltaDist rayDirX)).1
        (stepAndSide rayDirY posY (pyInt posY) (deltaDist rayDirY)).1
        (deltaDist rayDirX) (deltaDist rayDirY) hsy hdY (w + h + 2)
        ⟨pyInt posX, pyInt posY,
          (stepAndSide rayDirX posX (pyInt posX) (deltaDist rayDirX)).2,
          (stepAndSide rayDirY posY (pyInt posY) (deltaDist rayDirY)).2,
          none⟩
        (by
          show ddaMeasureY h _ (pyInt posY) < w + h + 2
          omega)
        hbound
    refine ⟨r, hr, hside, hmapx, ?_⟩
    unfold perpDist
    rw [if_neg (by simp [hside]), pydiv, if_neg hy0]
  · intro hy0 hx0 hbound
    have hsx := stepAndSide_sign rayDirX posX (pyInt posX) (deltaDist rayDirX)
    have hdX := deltaDist_nonneg rayDirX
    have hbx := ddaMeasureX_le w _ (pyInt posX) hsx hpx0 hpxw
    obtain ⟨r, hr, hside, hmapy, _⟩ :=
      ddaRun_all_x w h m
        (stepAndSide rayDirX posX (pyInt posX) (deltaDist rayDirX)).1
        (stepAndSide rayDirY posY (pyInt posY) (deltaDist rayDirY)).1
        (deltaDist rayDirX) (deltaDist rayDirY) hsx hdX (w + h + 2)
        ⟨pyInt posX, pyInt posY,
          (stepAndSide rayDirX posX (pyInt posX) (deltaDist rayDirX)).2,
          (stepAndSide rayDirY posY (pyInt posY) (deltaDist rayDirY)).2,
          none⟩
        (by
          show ddaMeasureX w _ (pyInt posX) < w + h + 2
          omega)
        hbound
    refine ⟨r, hr, hside, hmapy, ?_⟩
    unfold perpDist
    rw [if_pos hside, pydiv, if_neg hx0]

/-- C8 counterexample: with `rayDirX = 0` but a camera x position within
`10 ^ -40` of the next cell boundary, the zero axis's initial side distance
`10 ^ -40 * 10 ^ 30 = 10 ^ -10` is *smaller* than the y side distance, so
the very first DDA step advances the zero axis (`side = 0`), and the
perpendicular-distance computation then divides by `rayDirX = 0` - a
`ZeroDivisionError` in the source. -/
theorem zero_axis_chosen_divides_by_zero :
    castRay 3 3 [[0, 0, 0], [0, 1, 0], [0, 0, 0]] (1 - 1/10^40) (3/2) 0 1 =
      some ⟨1, 1, 1/10^10 + 10^30, 1/2, some 0⟩ ∧
    perpDist (1 - 1/10^40) (3/2) 0 1 1 1
      ⟨1, 1, 1/10^10 + 10^30, 1/2, some 0⟩ = none := by
  constructor
  · norm_num [castRay, ddaRun, ddaStep, stepAndSide, deltaDist, pyInt, oobMap,
      getCell, List.getD, Int.toNat, List.getElem?_cons_zero,
      List.getElem?_cons_succ, Option.getD]
  · norm_num [perpDist, pydiv]

/-- Witness for the amended C8: a well-behaved zero-x-component ray from the
cell centre never advances the x axis and divides only by `rayDirY`. -/
theorem zero_component_ray_witness :
    ∃ r, castRay 3 3 [[0, 0, 0], [0, 0, 0], [0, 0, 0]] (3/2) (3/2) 0 1 =
        some r ∧
      r.side = some 1 ∧ r.mapX = pyInt (3/2) ∧
      perpDist (3/2) (3/2) 0 1
          (stepAndSide 0 (3/2) (pyInt (3/2)) (deltaDist 0)).1
          (stepAndSide 1 (3/2) (pyInt (3/2)) (deltaDist 1)).1 r =
        some (((r.mapY : ℚ) - 3/2 +
          (1 - ((stepAndSide 1 (3/2) (pyInt (3/2)) (deltaDist 1)).1 : ℚ)) / 2)
            / 1) :=
  (zero_component_ray 3 3 [[0, 0, 0], [0, 0, 0], [0, 0, 0]] (3/2) (3/2) 0 1
      (by norm_num [pyInt]) (by norm_num [pyInt]) (by norm_num [pyInt])
      (by norm_num [pyInt])).2.2.1 rfl (by norm_num)
    (by norm_num [stepAndSide, deltaDist, pyInt, ddaMeasureY, Int.toNat])

/-- Every palette index has an entry in `WALL_COLORS`. -/
theorem WALL_COLORS_total : ∀ v ∈ wallPalette, (WALL_COLORS v).isSome = true := by
  decide

/-- C10: after generation and colour post-processing every cell holds `0` or
a palette index in `{1, 2, 3, 4}`, and for every in-bounds DDA hit the
`WALL_COLORS` lookup finds the hit cell's index - the unrecognized-index
white fallback of `dict.get` is never used. -/
theorem colorized_maze_lookup_total (w h : ℕ) (rand : ℕ → ℕ)
    (rand2 : ℕ → ℕ → ℕ) :
    (∀ x y, getCell (colorize rand2 (generate_maze w h rand)) x y = 0 ∨
      getCell (colorize rand2 (generate_maze w h rand)) x y ∈ wallPalette) ∧
    (∀ (posX posY rayDirX rayDirY : ℚ) (r : DdaState),
      castRay w h (colorize rand2 (generate_maze w h rand)) posX posY
          rayDirX rayDirY = some r →
      oobMap w h r.mapX r.mapY = false →
      ∃ col, WALL_COLORS (getCell (colorize rand2 (generate_maze w h rand))
          r.mapX.toNat r.mapY.toNat) = some col ∧
        (WALL_COLORS (getCell (colorize rand2 (generate_maze w h rand))
          r.mapX.toNat r.mapY.toNat)).getD (255, 255, 255) = col) := by
  constructor
  · intro x y
    rcases getCell_colorize rand2 (generate_maze w h rand) x y with ⟨_, h2⟩ | ⟨_, h2⟩
    · exact Or.inl h2
    · exact Or.inr h2
  · intro posX posY rayDirX rayDirY r hcast hoob
    have hne : getCell (colorize rand2 (generate_maze w h rand))
        r.mapX.toNat r.mapY.toNat ≠ 0 :=
      ddaRun_hit_nonzero w h (colorize rand2 (generate_maze w h rand))
        (stepAndSide rayDirX posX (pyInt posX) (deltaDist rayDirX)).1
        (stepAndSide rayDirY posY (pyInt posY) (deltaDist rayDirY)).1
        (deltaDist rayDirX) (deltaDist rayDirY) (w + h + 2)
        ⟨pyInt posX, pyInt posY,
          (stepAndSide rayDirX posX (pyInt posX) (deltaDist rayDirX)).2,
          (stepAndSide rayDirY posY (pyInt posY) (deltaDist rayDirY)).2,
          none⟩ r hcast hoob
    have hmem : getCell (colorize rand2 (generate_maze w h rand))
        r.mapX.toNat r.mapY.toNat ∈ wallPalette := by
      rcases getCell_colorize rand2 (generate_maze w h rand)
        r.mapX.toNat r.mapY.toNat with ⟨_, h2⟩ | ⟨_, h2⟩
      · exact absurd h2 hne
      · exact h2
    obtain ⟨col, hcol⟩ := Option.isSome_iff_exists.mp (WALL_COLORS_total _ hmem)
    exact ⟨col, hcol, by rw [hcol]; rfl⟩

/-- Witness for C10: the eastward ray in the colourised one-junction 3 times
3 maze hits the in-bounds cell `(2, 1)` and its palette lookup succeeds. -/
theorem colorized_maze_lookup_total_witness :
    ∃ col, WALL_COLORS (getCell
        (colorize (fun _ _ => 0) (generate_maze 3 3 (fun _ => 0))) 2 1) =
      some col ∧
      (WALL_COLORS (getCell
        (colorize (fun _ _ => 0) (generate_maze 3 3 (fun _ => 0))) 2 1)).getD
          (255, 255, 255) = col := by
  have hg : colorize (fun _ _ => 0) (generate_maze 3 3 (fun _ => 0)) =
      [[1, 1, 1], [1, 0, 1], [1, 1, 1]] := by decide
  refine (colorized_maze_lookup_total 3 3 (fun _ => 0) (fun _ _ => 0)).2
    (3/2) (3/2) 1 0 ⟨2, 1, 3/2, 5 * 10 ^ 29, some 0⟩ ?_ (by decide)
  rw [hg]
  norm_num [castRay, ddaRun, ddaStep, stepAndSide, deltaDist, pyInt, oobMap,
    getCell, List.getD, Int.toNat, List.getElem?_cons_zero,
    List.getElem?_cons_succ, Option.getD]

theorem count_set_zero_le : ∀ (row : List ℕ) (x : ℕ),
    (row.set x 0).count 1 ≤ row.count 1 := by
  intro row
  induction row with
  | nil => intro x; simp
  | cons v vs ih =>
    intro x
    cases x with
    | zero =>
      simp [List.set_cons_zero, List.count_cons]
    | succ x' =>
      simp only [List.set_cons_succ, List.count_cons]
      exact Nat.add_le_add_right (ih x') _

theorem count_set_zero_lt : ∀ (row : List ℕ) (x : ℕ), x < row.length →
    row.getD x 1 = 1 → (row.set x 0).count 1 < row.count 1 := by
  intro row
  induction row with
  | nil => intro x hx; simp at hx
  | cons v vs ih =>
    intro x hx hv
    cases x with
    | zero =>
      simp only [List.getD_cons_zero] at hv
      subst hv
      simp [List.set_cons_zero, List.count_cons]
    | succ x' =>
      simp only [List.getD_cons_succ] at hv
      simp only [List.set_cons_succ, List.count_cons]
      exact Nat.add_lt_add_right (ih x' (by simpa using hx) hv) _

theorem wallCount_setCell_le (x : ℕ) : ∀ (m : List (List ℕ)) (y : ℕ),
    wallCount (setCell m x y 0) ≤ wallCount m := by
  intro m
  induction m with
  | nil =>
    intro y
    simp [setCell, wallCount]
  | cons row rows ih =>
    intro y
    cases y with
    | zero =>
      show wallCount ((row.set x 0) :: rows) ≤ wallCount (row :: rows)
      simp only [wallCount, List.map_cons, List.sum_cons]
      exact Nat.add_le_add_right (count_set_zero_le row x) _
    | succ y' =>
      show wallCount (row :: setCell rows x y' 0) ≤ wallCount (row :: rows)
      simp only [wallCount, List.map_cons, List.sum_cons]
      exact Nat.add_le_add_left (ih y') _

theorem wallCount_setCell_lt (x : ℕ) : ∀ (m : List (List ℕ)) (y : ℕ),
    y < m.length → x < (m.getD y []).length → getCell m x y = 1 →
    wallCount (setCell m x y 0) < wallCount m := by
  intro m
  induction m with
  | nil =>
    intro y hy
    simp at hy
  | cons row rows ih =>
    intro y hy hx hv
    cases y with
    | zero =>
      show wallCount ((row.set x 0) :: rows) < wallCount (row :: rows)
      simp only [wallCount, List.map_cons, List.sum_cons]
      exact Nat.add_lt_add_right (count_set_zero_lt row x (by simpa using hx) hv) _
    | succ y' =>
      show wallCount (row :: setCell rows x y' 0) < wallCount (row :: rows)
      simp only [wallCount, List.map_cons, List.sum_cons]
      exact Nat.add_lt_add_left (ih y' (by simpa using hy) hx hv) _

/-- The carving loop's fuel is stable: with fuel at least
`2 * (#Wall cells) + |stack|`, one more unit of fuel changes nothing (each
iteration either pops the stack or opens at least one Wall cell). -/
theorem carve_fuel_stable (w h : ℕ) (rand : ℕ → ℕ) :
    ∀ (fuel : ℕ) (m : List (List ℕ)) (stack : List (ℕ × ℕ)) (k : ℕ),
      m.length = h → (∀ row ∈ m, row.length = w) →
      2 * wallCount m + stack.length ≤ fuel →
      carve w h rand fuel m stack k = carve w h rand (fuel + 1) m stack k := by
  intro fuel
  induction fuel with
  | zero =>
    intro m stack k hrows hcols hb
    have hstack : stack = [] := by
      cases stack with
      | nil => rfl
      | cons p st => simp at hb
    subst hstack
    rfl
  | succ n ih =>
    intro m stack k hrows hcols hb
    match stack with
    | [] => rfl
    | (x, y) :: st =>
      show (if (neighbors w h m x y).isEmpty then
              carve w h rand n m st k
            else
              carve w h rand n
                (setCell (setCell m
                    ((neighbors w h m x y).getD
                      (rand k % (neighbors w h m x y).length) (0, 0)).1
                    ((neighbors w h m x y).getD
                      (rand k % (neighbors w h m x y).length) (0, 0)).2 0)
                  ((x + ((neighbors w h m x y).getD
                    (rand k % (neighbors w h m x y).length) (0, 0)).1) / 2)
                  ((y + ((neighbors w h m x y).getD
                    (rand k % (neighbors w h m x y).length) (0, 0)).2) / 2) 0)
                (((neighbors w h m x y).getD
                  (rand k % (neighbors w h m x y).length) (0, 0)) ::
                    (x, y) :: st)
                (k + 1)) =
          (if (neighbors w h m x y).isEmpty then
              carve w h rand (n + 1) m st k
            else
              carve w h rand (n + 1)
                (setCell (setCell m
                    ((neighbors w h m x y).getD
                      (rand k % (neighbors w h m x y).length) (0, 0)).1
                    ((neighbors w h m x y).getD
                      (rand k % (neighbors w h m x y).length) (0, 0)).2 0)
                  ((x + ((neighbors w h m x y).getD
                    (rand k % (neighbors w h m x y).length) (0, 0)).1) / 2)
                  ((y + ((neighbors w h m x y).getD
                    (rand k % (neighbors w h m x y).length) (0, 0)).2) / 2) 0)
                (((neighbors w h m x y).getD
                  (rand k % (neighbors w h m x y).length) (0, 0)) ::
                    (x, y) :: st)
                (k + 1))
      split
      · refine ih m st k hrows hcols ?_
        simp only [List.length_cons] at hb
        omega
      · next hne =>
        have hlen : 0 < (neighbors w h m x y).length := by
          cases hnb : neighbors w h m x y with
          | nil => rw [hnb] at hne; simp [List.isEmpty] at hne
          | cons a l => simp
        have hcmem := getD_mem (l := neighbors w h m x y) (d := (0, 0))
          (Nat.mod_lt (rand k) hlen)
        rw [neighbors, List.mem_filter] at hcmem
        obtain ⟨_, hpredb⟩ := hcmem
        have hpred : 0 < ((neighbors w h m x y).getD
              (rand k % (neighbors w h m x y).length) (0, 0)).1 ∧
            ((neighbors w h m x y).getD
              (rand k % (neighbors w h m x y).length) (0, 0)).1 < w - 1 ∧
            0 < ((neighbors w h m x y).getD
              (rand k % (neighbors w h m x y).length) (0, 0)).2 ∧
            ((neighbors w h m x y).getD
              (rand k % (neighbors w h m x y).length) (0, 0)).2 < h - 1 ∧
            getCell m ((neighbors w h m x y).getD
              (rand k % (neighbors w h m x y).length) (0, 0)).1
              ((neighbors w h m x y).getD
                (rand k % (neighbors w h m x y).length) (0, 0)).2 = 1 := by
          simp only [Bool.and_eq_true, decide_eq_true_eq, beq_iff_eq] at hpredb
          tauto
        obtain ⟨hc1, hc2, hc3, hc4, hc5⟩ := hpred
        have hwlt : wallCount (setCell m ((neighbors w h m x y).getD
              (rand k % (neighbors w h m x y).length) (0, 0)).1
              ((neighbors w h m x y).getD
                (rand k % (neighbors w h m x y).length) (0, 0)).2 0) <
            wallCount m :=
          wallCount_setCell_lt _ m _ (by omega)
            (by rw [rowLen hrows hcols (by omega)]; omega) hc5
        have hwle := wallCount_setCell_le
          ((x + ((neighbors w h m x y).getD
            (rand k % (neighbors w h m x y).length) (0, 0)).1) / 2)
          (setCell m ((neighbors w h m x y).getD
              (rand k % (neighbors w h m x y).length) (0, 0)).1
            ((neighbors w h m x y).getD
              (rand k % (neighbors w h m x y).length) (0, 0)).2 0)
          ((y + ((neighbors w h m x y).getD
            (rand k % (neighbors w h m x y).length) (0, 0)).2) / 2)
        refine ih _ _ (k + 1) ?_ ?_ ?_
        · rw [rows_setCell, rows_setCell]
          exact hrows
        · exact cols_setCell _ _ _ 0 (cols_setCell _ _ _ 0 hcols)
        · simp only [List.length_cons] at hb ⊢
          omega

/-- The fuel `2 * w * h + 1` used by `generate_maze` is enough: any amount
of extra fuel produces the same grid, so the modelled loop runs to
completion exactly as the unbounded Python loop does. -/
theorem generate_maze_fuel_enough (w h : ℕ) (rand : ℕ → ℕ) :
    ∀ extra : ℕ, carve w h rand (2 * w * h + 1 + extra)
        (setCell (initMaze w h) 1 1 0) [(1, 1)] 0 =
      generate_maze w h rand := by
  have hrows : (setCell (initMaze w h) 1 1 0).length = h := by
    rw [rows_setCell]
    simp [initMaze]
  have hcols : ∀ row ∈ setCell (initMaze w h) 1 1 0, row.length = w := by
    refine cols_setCell _ _ _ 0 ?_
    intro row hrow
    rw [initMaze] at hrow
    rw [List.eq_of_mem_replicate hrow]
    simp
  have hwc : wallCount (setCell (initMaze w h) 1 1 0) ≤ w * h := by
    calc wallCount (setCell (initMaze w h) 1 1 0) ≤ wallCount (initMaze w h) :=
          wallCount_setCell_le _ _ _
    _ ≤ w * h := by
          simp only [wallCount, initMaze, List.map_replicate,
            List.count_replicate]
          simp [List.sum_replicate, mul_comm]
  intro extra
  induction extra with
  | zero => rfl
  | succ e ihe =>
    have hstep := carve_fuel_stable w h rand (2 * w * h + 1 + e)
      (setCell (initMaze w h) 1 1 0) [(1, 1)] 0 hrows hcols
      (by
        simp only [List.length_cons, List.length_nil]
        rw [Nat.mul_assoc]
        omega)
    exact hstep.symm.trans ihe
